import Mathlib

/-!
Verification of the digsigclt content-synchronization core.

This development embeds the synchronization engine of the digsigclt client
(`digsigclt/sync.py`, `digsigclt/lock.py`,
`digsigclt/request_handler/request_handler.py`) as pure Lean functions over
an explicit file-system tree model, and proves the specified properties of
`update`, `gen_manifest`, the pruning phase, the single-flight lock and the
HTTP handlers.

Modelling conventions:
* A directory is a finite list of named entries (`Tree`); entry order models
  `Path.iterdir` order.  A real directory has pairwise-distinct entry names;
  this invariant is `wfEntries` and appears as a hypothesis where a theorem
  needs it.
* File contents are byte lists.  SHA-256 itself is external (`hashlib`); it
  enters the model as an abstract digest function `h : Bytes → String`
  applied to the exact byte sequence the Python code feeds into it.
* JSON decoding (`json.loads`) is external; it enters the model as a
  function `jparse : Bytes → ParsedJson` classifying the manifest text the
  way `load_manifest` branches on it.
* Opening and extracting the archive (`tarfile`) is external; its outcome
  enters `update` as an `ExtractResult`: a `ReadError` raised by
  `tar_open` itself on a corrupt/empty/non-tar stream (outside the
  `try`, hence uncaught), one of the exceptions the code catches during
  `extractall` (`EOFError`, `tarfile.ReadError`), or the extracted
  staging tree.
* `PermissionError` on writing/unlinking a destination path is an
  environment condition; it is modelled by a set `perm` of destination
  paths (relative to the live root) on which those operations fail.
* An uncaught Python exception (e.g. `IsADirectoryError` when a staged
  file collides with a live directory) aborts the request without a
  return value; such outcomes are modelled as `none` in an `Option` result.
-/

namespace Digsigclt

/-- A file-system name (one path segment), as its character sequence. -/
abbrev Name := List Char

/-- Raw file contents as a byte sequence. -/
abbrev Bytes := List Nat

/-- A file-system node: a regular file with contents, or a directory with
named entries.  Symbolic links and other inode kinds are outside the model
(the code skips them). -/
inductive Inode where
  | file (content : Bytes)
  | dir (entries : List (Name × Inode))
deriving Repr, Inhabited

/-- The entry list of one directory; the live tree and the staging tree are
values of this type (the root directory itself always exists). -/
abbrev Tree := List (Name × Inode)

/-- `common.LOGFILE = Path('synclog.txt')`, the reserved sync-log name. -/
def LOGFILE : Name := ['s', 'y', 'n', 'c', 'l', 'o', 'g', '.', 't', 'x', 't']

/-- `sync.MANIFEST = "manifest.json"`. -/
def MANIFEST : Name := ['m', 'a', 'n', 'i', 'f', 'e', 's', 't', '.', 'j', 's', 'o', 'n']

/-- `inode.stem.startswith(".")`: for any non-empty file name this is
exactly "the name starts with a dot" (the stem is the name minus its final
suffix, so it starts with a dot iff the name does). -/
def startsWithDot (n : Name) : Bool :=
  match n with
  | [] => false
  | c :: _ => c = '.'

/-- First entry with the given name (`directory / name` resolution). -/
def lookupEntry (t : Tree) (n : Name) : Option Inode :=
  match t with
  | [] => none
  | (m, i) :: rest => if m = n then some i else lookupEntry rest n

/-- Replace the entry named `n` (keeping its position), or append a new
entry at the end — creating a file or directory appends to `iterdir` order. -/
def setEntry (t : Tree) (n : Name) (i : Inode) : Tree :=
  match t with
  | [] => [(n, i)]
  | (m, j) :: rest => if m = n then (m, i) :: rest else (m, j) :: setEntry rest n i

theorem setEntry_nil (n : Name) (i : Inode) : setEntry [] n i = [(n, i)] := rfl

theorem setEntry_cons_self (m : Name) (j i : Inode) (rest : List (Name × Inode)) :
    setEntry ((m, j) :: rest) m i = (m, i) :: rest := by
  simp [setEntry]

theorem setEntry_cons_ne (m n : Name) (j i : Inode) (rest : List (Name × Inode))
    (h : m ≠ n) : setEntry ((m, j) :: rest) n i = (m, j) :: setEntry rest n i := by
  simp [setEntry, h]

/-- Remove the entry named `n` (`Path.unlink` / `Path.rmdir` effect). -/
def removeEntry (t : Tree) (n : Name) : Tree :=
  match t with
  | [] => []
  | (m, j) :: rest => if m = n then rest else (m, j) :: removeEntry rest n

/-- Real directories have pairwise-distinct entry names, recursively.  This
is the well-formedness invariant every tree obtained from a file system
satisfies. -/
def wfEntries : Tree → Bool
  | [] => true
  | (n, .file _) :: rest =>
      decide (n ∉ rest.map Prod.fst) && wfEntries rest
  | (n, .dir sub) :: rest =>
      decide (n ∉ rest.map Prod.fst) && wfEntries sub && wfEntries rest

/-- Node at a (non-empty) path below the root of `t`. -/
def getNode (t : Tree) : List Name → Option Inode
  | [] => none
  | [n] => lookupEntry t n
  | n :: n' :: p =>
      match lookupEntry t n with
      | some (.dir sub) => getNode sub (n' :: p)
      | _ => none

/-- Contents of the regular file at `p` (reading it with `open('rb')`),
if a regular file is there. -/
def getContent (t : Tree) (p : List Name) : Option Bytes :=
  match getNode t p with
  | some (.file c) => some c
  | _ => none

/-- `sync.get_files`, fused with the `open('rb')` read its consumers
perform: recursively lists the regular files in the given directory
together with their contents, excluding any file whose path relative to
the directory currently being iterated equals `LOGFILE` (i.e. any file
*named* `synclog.txt`, at every depth), and — in the base directory
only — skipping dot-prefixed entries entirely.  Yield order is `iterdir`
order, subdirectories expanded in place. -/
def getFilesRec (basedir : Bool) : Tree → List (List Name × Bytes)
  | [] => []
  | (n, .file c) :: rest =>
      (if basedir && startsWithDot n then []
       else if n = LOGFILE then [] else [([n], c)])
      ++ getFilesRec basedir rest
  | (n, .dir sub) :: rest =>
      (if basedir && startsWithDot n then []
       else (getFilesRec false sub).map (fun pc => (n :: pc.1, pc.2)))
      ++ getFilesRec basedir rest

/-- `sync.get_files(directory)`: the relative paths the walk yields
(`get_files` yields `Path` objects; a path object is the pair of its
relative segments and the file it gives access to, so the path component
is the first projection of `getFilesRec`). -/
def get_files (t : Tree) : List (List Name) :=
  (getFilesRec true t).map Prod.fst

/-- `sync.get_orphans`: files within the directory that are not listed in
the manifest. -/
def get_orphans (t : Tree) (manifest : List (List Name)) : List (List Name) :=
  (get_files t).filter (fun p => decide (p ∉ manifest))

/-- The chunk sequence produced by `while (chunk := f.read(chunk_size)) != b""`:
consecutive `chunk_size`-slices of the content; reading with
`chunk_size = 0` immediately yields `b""` and stops. -/
def readChunks (chunkSize : Nat) : Bytes → List Bytes
  | [] => []
  | b :: rest =>
      if chunkSize = 0 then []
      else ((b :: rest).take chunkSize) :: readChunks chunkSize ((b :: rest).drop chunkSize)
termination_by b => b.length
decreasing_by
  simp only [List.length_drop, List.length_cons]
  omega

/-- `sync.copy_file`: the destination contents after the chunked copy
(the destination is opened with `'wb'`, so it holds exactly the
concatenation of the chunks written). -/
def copy_file (chunk_size : Nat) (src : Bytes) : Bytes :=
  (readChunks chunk_size src).flatten

/-- `sync.copy_subfile` applied to destination state `dstIno` at live-root
relative path `dstPath`: `none` models the uncaught `IsADirectoryError`
raised by `dst.open('wb')` when the destination is a directory; a
destination in `perm` raises `PermissionError`, which is caught and
logged, leaving the destination unchanged; otherwise the destination
becomes the chunk-copied file. -/
def copy_subfile (perm : List (List Name)) (chunk_size : Nat) (dstPath : List Name)
    (c : Bytes) (dstIno : Option Inode) : Option (Option Inode) :=
  match dstIno with
  | some (.dir _) => none
  | other => if dstPath ∈ perm then some other else some (some (.file (copy_file chunk_size c)))

/-- `sync.copy_directory` (with `copy_subdir` inlined at its single call
site): copy every entry of `src` into `dst` at the same relative path,
overwriting files, creating directories as needed, and removing a file
that occupies a path that must become a directory.  `pre` is the path of
`dst` relative to the live root (used to interpret `perm`).  A
`PermissionError` while unlinking such a file is caught and skips that
subdirectory; a `PermissionError` while writing a file is caught inside
`copy_subfile` and skips that file.  Result `none` models an uncaught
exception (`IsADirectoryError`). -/
def copy_directory (perm : List (List Name)) (chunk_size : Nat) :
    List Name → List (Name × Inode) → Tree → Option Tree
  | _, [], dst => some dst
  | pre, (n, .file c) :: rest, dst =>
      match copy_subfile perm chunk_size (pre ++ [n]) c (lookupEntry dst n) with
      | none => none
      | some none => copy_directory perm chunk_size pre rest dst
      | some (some ino) => copy_directory perm chunk_size pre rest (setEntry dst n ino)
  | pre, (n, .dir sub) :: rest, dst =>
      match lookupEntry dst n with
      | some (.file _) =>
          if (pre ++ [n]) ∈ perm then
            copy_directory perm chunk_size pre rest dst
          else
            match copy_directory perm chunk_size (pre ++ [n]) sub [] with
            | none => none
            | some sub' => copy_directory perm chunk_size pre rest (setEntry dst n (.dir sub'))
      | some (.dir d) =>
          match copy_directory perm chunk_size (pre ++ [n]) sub d with
          | none => none
          | some sub' => copy_directory perm chunk_size pre rest (setEntry dst n (.dir sub'))
      | none =>
          match copy_directory perm chunk_size (pre ++ [n]) sub [] with
          | none => none
          | some sub' => copy_directory perm chunk_size pre rest (setEntry dst n (.dir sub'))

/-- `path.unlink()` for the regular file at `p`; a non-file or missing
path is left untouched (those cases are the caught `FileNotFoundError` /
never-arising races of `strip_files`). -/
def removeFileAt (t : Tree) : List Name → Tree
  | [] => t
  | [n] =>
      match lookupEntry t n with
      | some (.file _) => removeEntry t n
      | _ => t
  | n :: n' :: p =>
      match lookupEntry t n with
      | some (.dir sub) => setEntry t n (.dir (removeFileAt sub (n' :: p)))
      | _ => t

/-- `sync.strip_files`: unlink every orphan (walked file not listed in the
manifest). -/
def strip_files (t : Tree) (manifest : List (List Name)) : Tree :=
  (get_orphans t manifest).foldl removeFileAt t

/-- `sync.strip_tree`: recursively process subdirectories, then remove the
directory itself when it is not the base directory and is empty; dot
entries of the base directory are not descended into. -/
def strip_tree (basedir : Bool) : Tree → Tree
  | [] => []
  | (n, .file c) :: rest =>
      (n, .file c) :: strip_tree basedir rest
  | (n, .dir sub) :: rest =>
      (if basedir && startsWithDot n then [(n, .dir sub)]
       else
         let sub' := strip_tree false sub
         if sub'.isEmpty then [] else [(n, .dir sub')])
      ++ strip_tree basedir rest

/-- Outcome of `json.loads` on the manifest text, at the granularity
`load_manifest` branches on: not JSON at all (`ValueError`), JSON but not
a list, or a list of relative paths (each entry `parts` denotes the path
`Path(*parts)`, given here by its segments). -/
inductive ParsedJson where
  | notJson
  | nonList
  | list (paths : List (List Name))

/-- Result of `sync.load_manifest`: `error` is the raised `ManifestError`
(manifest absent, not JSON, or not a list); `crash` is the uncaught
`IsADirectoryError` when `manifest.json` is a directory; on success the
parsed manifest is returned together with the staging tree from which the
manifest file has been unlinked. -/
inductive LoadResult where
  | crash
  | error
  | ok (manifest : List (List Name)) (staged : Tree)

/-- `sync.load_manifest`: read `directory / MANIFEST`, parse it as JSON,
require a list, then unlink the manifest file so that it is not copied
into the live directory. -/
def load_manifest (jparse : Bytes → ParsedJson) (staged : Tree) : LoadResult :=
  match lookupEntry staged MANIFEST with
  | none => .error
  | some (.dir _) => .crash
  | some (.file text) =>
      match jparse text with
      | .notJson => .error
      | .nonList => .error
      | .list paths => .ok paths (removeEntry staged MANIFEST)

/-- `sync.gen_manifest`: for every walked file, the pair of its relative
path segments and the hex digest of the SHA-256 state fed with the file's
chunks in order (`h` is the digest of the accumulated byte sequence). -/
def gen_manifest (h : Bytes → String) (chunk_size : Nat) (t : Tree) :
    List (List Name × String) :=
  (getFilesRec true t).map (fun pc => (pc.1, h ((readChunks chunk_size pc.2).flatten)))

/-- Outcome of `tar_open(...)` followed by `.extractall` on the posted
stream.  `openReadError` is the `ReadError` that `tar_open` itself raises
on a corrupt, empty or non-tar `xz` stream: the call sits before the
`try` that guards only `extractall`, so this exception is NOT caught by
`update`.  `eofError` and `readError` are the two exceptions raised
during `extractall` (a stream truncated after a valid header) that
`update` does catch.  `ok` is the extracted staging tree. -/
inductive ExtractResult where
  | openReadError
  | eofError
  | readError
  | ok (staged : Tree)

/-- `sync.update`: extract the archive into a fresh staging directory
(a `ReadError` at `tar_open` time propagates uncaught → `none`; an
extraction failure caught inside the `try` → `False` before anything
else happens), load and unlink the manifest (failure → `False`), merge
the staged tree into the live directory, then strip orphans and empty
directories and return `True`.  The returned tree is the live directory
after the call; `none` models an uncaught exception escaping `update`. -/
def update (jparse : Bytes → ParsedJson) (perm : List (List Name)) (chunk_size : Nat)
    (extract : ExtractResult) (live : Tree) : Option (Bool × Tree) :=
  match extract with
  | .openReadError => none
  | .eofError => some (false, live)
  | .readError => some (false, live)
  | .ok staged =>
      match load_manifest jparse staged with
      | .crash => none
      | .error => some (false, live)
      | .ok manifest staged' =>
          match copy_directory perm chunk_size [] staged' live with
          | none => none
          | some live' => some (true, strip_tree true (strip_files live' manifest))

/-! ### The single-flight lock (`digsigclt/lock.py`) -/

/-- The state of the binary lock wrapped by `lock.Lock`: a `threading.Lock`
is either free or held; no owner metadata exists. -/
inductive LockState where
  | free
  | held
deriving Repr, DecidableEq

/-- `Lock.__enter__`: `acquire(blocking=False)` — take the lock if it is
free, otherwise raise `Locked` immediately (`none`) leaving the lock
state untouched. -/
def lockEnter : LockState → Option LockState
  | .free => some .held
  | .held => none

/-- `Lock.__exit__`: release the lock; the `with` statement guarantees
this runs whether the body returned or raised. -/
def lockExit : LockState → LockState :=
  fun _ => .free

/-- Outcome of a `with LOCK:` block as observed by its caller: the
`Locked` exception from `__enter__`, an exception `e` propagating out of
the body (after `__exit__` ran), or the body's value. -/
inductive WithLockResult (E A : Type) where
  | locked
  | raised (e : E)
  | ok (a : A)

/-- `with LOCK: body` — the protected-operation pattern of
`HTTPRequestHandler.do_POST` and `get_manifest`: a non-blocking acquire
that raises `Locked` when the lock is held, and a release on every exit
path of the body, normal or exceptional. -/
def withLock {E A : Type} (st : LockState) (body : Except E A) :
    LockState × WithLockResult E A :=
  match lockEnter st with
  | none => (st, .locked)
  | some st' =>
      match body with
      | .error e => (lockExit st', .raised e)
      | .ok a => (lockExit st', .ok a)

/-! ### The HTTP request handler (`digsigclt/request_handler/request_handler.py`) -/

/-- `HTTPRequestHandler.log_sync`: write `datetime.now().isoformat()`
(rendered as the byte sequence `iso`), followed by `os.linesep` on POSIX
(`nl`; empty elsewhere), to `directory / LOGFILE` opened with `'w'`.
`none` models the uncaught `IsADirectoryError` when a directory occupies
the log-file name. -/
def log_sync (iso nl : Bytes) (live : Tree) : Option Tree :=
  match lookupEntry live LOGFILE with
  | some (.dir _) => none
  | _ => some (setEntry live LOGFILE (.file (iso ++ nl)))

/-- `HTTPRequestHandler.update_digsig_data`: run `update` on the spooled
request body; on `True` set the response to `200 "System synchronized."`
and record the sync timestamp via `log_sync`; on `False` set it to
`500 "Synchronization failed."` without touching the log file.  The
result is the live tree together with the `(text, status)` passed to
`send_data`; `none` models an uncaught exception (no response sent). -/
def update_digsig_data (jparse : Bytes → ParsedJson) (perm : List (List Name))
    (chunk_size : Nat) (extract : ExtractResult) (iso nl : Bytes) (live : Tree) :
    Option (Tree × String × Nat) :=
  match update jparse perm chunk_size extract live with
  | none => none
  | some (true, live') =>
      match log_sync iso nl live' with
      | none => none
      | some live'' => some (live'', "System synchronized.", 200)
  | some (false, live') => some (live', "Synchronization failed.", 500)

/-- `HTTPRequestHandler.do_POST`: `try: with LOCK: update_digsig_data()
except Locked: send 503`.  Returns the lock state after the request and
the `(live tree, response text, status)` outcome (`none`: the handler
raised and no response was sent; the lock was still released by
`__exit__`). -/
def do_POST (lock : LockState) (jparse : Bytes → ParsedJson) (perm : List (List Name))
    (chunk_size : Nat) (extract : ExtractResult) (iso nl : Bytes) (live : Tree) :
    LockState × Option (Tree × String × Nat) :=
  match lockEnter lock with
  | none => (lock, some (live, "Synchronization already in progress.", 503))
  | some st' =>
      match update_digsig_data jparse perm chunk_size extract iso nl live with
      | none => (lockExit st', none)
      | some r => (lockExit st', some r)

/-- The `command` value popped from the request JSON, at the granularity
`do_PUT` distinguishes: a string (a possible `COMMANDS` key), another
hashable value (number, boolean, `None` — a valid dict lookup that can
only miss), or an unhashable value (list, dict — `COMMANDS[command]`
raises an uncaught `TypeError`). -/
inductive JVal where
  | str (s : String)
  | otherHashable
  | unhashable

/-- The parsed PUT body, at the granularity `do_PUT` branches on:
`rfile.read` raising `MemoryError`; `json.loads` raising `ValueError`;
a JSON value that is not an object (so `json.pop('command')` raises an
uncaught `TypeError`/`AttributeError`); or a JSON object, with the value
of its `"command"` key (if any) and the remaining fields `rest`. -/
inductive PutBody (α : Type) where
  | memoryError
  | notJson
  | nonObject
  | obj (cmd : Option JVal) (rest : α)

/-- Outcome of invoking a dispatch-table handler with `**json`: the
`TypeError` of a wrong argument shape, any other exception (uncaught),
or a `Response` value with its `(payload, content_type, status_code)`. -/
inductive HandlerResult (ρ : Type) where
  | typeError
  | raises
  | ok (payload : ρ) (content_type : String) (status_code : Nat)

/-- What `do_PUT` passes to `send_data`: a plain error/status text, or
the handler's response forwarded as
`send_data(response.payload, response.status_code, content_type=response.content_type)`. -/
inductive PutResponse (ρ : Type) where
  | message (text : String) (status : Nat)
  | forwarded (payload : ρ) (content_type : String) (status : Nat)

/-- `HTTPRequestHandler.do_PUT` over a dispatch table `commands`
(`rpc.COMMANDS`): not-JSON → 406; missing `command` key → 400; command
not a `COMMANDS` key → 400; handler `TypeError` → 400; otherwise the
handler's triple is forwarded.  `none` models an uncaught exception (no
response sent). -/
def do_PUT {α ρ : Type} (commands : List (String × (α → HandlerResult ρ))) :
    PutBody α → Option (PutResponse ρ)
  | .memoryError => some (.message "Out of memory." 500)
  | .notJson => some (.message "Received data is not JSON." 406)
  | .nonObject => none
  | .obj none _ => some (.message "No command specified." 400)
  | .obj (some cmdVal) rest =>
      match cmdVal with
      | .unhashable => none
      | .otherHashable => some (.message "Invalid command specified." 400)
      | .str s =>
          match commands.find? (fun c => c.1 == s) with
          | none => some (.message "Invalid command specified." 400)
          | some (_, f) =>
              match f rest with
              | .typeError => some (.message "Invalid arguments specified." 400)
              | .raises => none
              | .ok payload ct status => some (.forwarded payload ct status)

/-! ### Basic facts about directory-entry operations -/

@[simp]
theorem lookupEntry_nil (n : Name) : lookupEntry [] n = none := rfl

theorem lookupEntry_cons (m : Name) (i : Inode) (rest : Tree) (n : Name) :
    lookupEntry ((m, i) :: rest) n = if m = n then some i else lookupEntry rest n := rfl

@[simp]
theorem lookupEntry_setEntry_self (t : Tree) (n : Name) (i : Inode) :
    lookupEntry (setEntry t n i) n = some i := by
  induction t with
  | nil => simp [setEntry, lookupEntry]
  | cons e rest ih =>
      obtain ⟨m, j⟩ := e
      by_cases h : m = n <;> simp [setEntry, lookupEntry, h, ih]

theorem lookupEntry_setEntry_ne (t : Tree) (m n : Name) (i : Inode) (h : m ≠ n) :
    lookupEntry (setEntry t m i) n = lookupEntry t n := by
  induction t with
  | nil => simp [setEntry, lookupEntry, h]
  | cons e rest ih =>
      obtain ⟨k, j⟩ := e
      by_cases hk : k = m
      · subst hk
        simp [setEntry, lookupEntry, h]
      · simp [setEntry, lookupEntry, hk, ih]

theorem lookupEntry_removeEntry_ne (t : Tree) (m n : Name) (h : m ≠ n) :
    lookupEntry (removeEntry t m) n = lookupEntry t n := by
  induction t with
  | nil => simp [removeEntry]
  | cons e rest ih =>
      obtain ⟨k, j⟩ := e
      by_cases hk : k = m
      · subst hk
        simp [removeEntry, lookupEntry, h]
      · simp [removeEntry, lookupEntry, hk, ih]

theorem lookupEntry_none_of_not_mem (t : Tree) (n : Name) (h : n ∉ t.map Prod.fst) :
    lookupEntry t n = none := by
  induction t with
  | nil => rfl
  | cons e rest ih =>
      obtain ⟨m, j⟩ := e
      simp only [List.map_cons, List.mem_cons] at h
      push_neg at h
      simp [lookupEntry, Ne.symm h.1, ih h.2]

theorem mem_map_fst_of_lookupEntry (t : Tree) (n : Name) (i : Inode)
    (h : lookupEntry t n = some i) : n ∈ t.map Prod.fst := by
  induction t with
  | nil => simp [lookupEntry] at h
  | cons e rest ih =>
      obtain ⟨m, j⟩ := e
      by_cases hm : m = n
      · simp [hm]
      · simp only [lookupEntry, hm, if_false] at h
        simp [ih h]

theorem lookupEntry_ne_none_of_mem (t : Tree) (n : Name) (i : Inode)
    (h : (n, i) ∈ t) : lookupEntry t n ≠ none := by
  induction t with
  | nil => cases h
  | cons e rest ih =>
      obtain ⟨k, j⟩ := e
      rcases List.mem_cons.mp h with he | he
      · cases he
        simp [lookupEntry]
      · by_cases hk : k = n
        · simp [lookupEntry, hk]
        · simpa [lookupEntry, hk] using ih he

theorem lookupEntry_removeEntry_self_of_nodup (t : Tree) (n : Name)
    (h : (t.map Prod.fst).Nodup) : lookupEntry (removeEntry t n) n = none := by
  induction t with
  | nil => rfl
  | cons e rest ih =>
      obtain ⟨m, j⟩ := e
      simp only [List.map_cons, List.nodup_cons] at h
      by_cases hm : m = n
      · subst hm
        simp only [removeEntry, if_pos rfl]
        exact lookupEntry_none_of_not_mem rest m h.1
      · simp [removeEntry, hm, lookupEntry, ih h.2]

/-- Unpacking `wfEntries` at a cons cell. -/
theorem wfEntries_cons_iff (n : Name) (ino : Inode) (rest : Tree) :
    wfEntries ((n, ino) :: rest) = true ↔
      n ∉ rest.map Prod.fst ∧
      (match ino with | .file _ => True | .dir sub => wfEntries sub = true) ∧
      wfEntries rest = true := by
  cases ino <;> simp [wfEntries, and_assoc]

theorem wfEntries_nodup (t : Tree) (h : wfEntries t = true) : (t.map Prod.fst).Nodup := by
  induction t with
  | nil => simp
  | cons e rest ih =>
      obtain ⟨m, j⟩ := e
      rw [wfEntries_cons_iff] at h
      simp [h.1, ih h.2.2]

theorem map_fst_removeEntry_subset (t : Tree) (n : Name) :
    ((removeEntry t n).map Prod.fst) ⊆ t.map Prod.fst := by
  induction t with
  | nil => simp [removeEntry]
  | cons e rest ih =>
      obtain ⟨k, i⟩ := e
      by_cases hk : k = n
      · simp only [removeEntry, if_pos hk]
        intro x hx
        simp [hx]
      · simp only [removeEntry, if_neg hk, List.map_cons]
        intro x hx
        simp only [List.mem_cons] at hx
        rcases hx with hx | hx
        · simp [hx]
        · simp [ih hx]

theorem wfEntries_removeEntry (t : Tree) (n : Name) (h : wfEntries t = true) :
    wfEntries (removeEntry t n) = true := by
  induction t with
  | nil => simpa [removeEntry] using h
  | cons e rest ih =>
      obtain ⟨m, j⟩ := e
      rw [wfEntries_cons_iff] at h
      by_cases hm : m = n
      · simpa [removeEntry, hm] using h.2.2
      · have hm' : m ∉ (removeEntry rest n).map Prod.fst :=
          fun hc => h.1 (map_fst_removeEntry_subset rest n hc)
        rw [removeEntry, if_neg hm, wfEntries_cons_iff]
        exact ⟨hm', h.2.1, ih h.2.2⟩

/-! ### C2 — the single-flight lock -/

/-- C2: the single-flight lock is binary, non-blocking and non-reentrant:
entering it when it is free acquires it and runs the protected body,
forwarding the body's outcome; entering it when it is already held fails
immediately (the `Locked` exception) without waiting and without changing
the lock state; and after every protected operation — a body that returns
as well as a body that raises — the lock is back to free, so no request
leaves the system permanently locked. -/
theorem lock_single_flight {E A : Type} (body : Except E A) :
    lockEnter LockState.free = some LockState.held ∧
    lockEnter LockState.held = none ∧
    withLock LockState.held body = (LockState.held, WithLockResult.locked) ∧
    (withLock LockState.free body).1 = LockState.free ∧
    (withLock LockState.free body).2 =
      (match body with
       | .ok a => WithLockResult.ok a
       | .error e => WithLockResult.raised e) := by
  cases body <;> simp [withLock, lockEnter, lockExit]

/-! ### C1 — abort before mutate -/

/-- C1 counterexample: the claim asserts that for EVERY input stream
whose extraction fails — explicitly including a corrupt archive —
`update` returns failure (`False`).  But `tar_open(mode="r:xz", ...)`
itself raises `ReadError` on a corrupt (or empty, or non-tar) stream,
and that call sits before the `try` that guards only `extractall`
(`sync.py:193` vs `194-201`), so `update` raises an uncaught exception
and returns no value at all instead of `False`. -/
theorem update_corrupt_stream_crash :
    update (fun _ => ParsedJson.notJson) [] 4 ExtractResult.openReadError
      [(['b'], Inode.file [2])] = none := rfl

/-- C1 (amended): an extraction failure that `update` catches — the
`EOFError`/`ReadError` raised during `extractall` by a stream truncated
after a valid header — or a staged tree without a manifest file, or a
manifest that is not parseable as a JSON list, makes `update` return
`False` with the live directory byte-identical to its state before the
call: the returned tree is exactly the input `live`, untouched.  A
stream that is corrupt at open time instead makes `update` raise an
uncaught `ReadError` (no return value); the live tree is not touched on
that path either, the crash happening before any staging or merging. -/
theorem update_abort_before_mutate (jparse : Bytes → ParsedJson)
    (perm : List (List Name)) (chunk_size : Nat) (live staged : Tree) :
    update jparse perm chunk_size ExtractResult.openReadError live = none ∧
    update jparse perm chunk_size ExtractResult.eofError live = some (false, live) ∧
    update jparse perm chunk_size ExtractResult.readError live = some (false, live) ∧
    (lookupEntry staged MANIFEST = none →
      update jparse perm chunk_size (ExtractResult.ok staged) live = some (false, live)) ∧
    (∀ text, lookupEntry staged MANIFEST = some (Inode.file text) →
      jparse text = ParsedJson.notJson ∨ jparse text = ParsedJson.nonList →
      update jparse perm chunk_size (ExtractResult.ok staged) live = some (false, live)) := by
  refine ⟨rfl, rfl, rfl, ?_, ?_⟩
  · intro h
    simp [update, load_manifest, h]
  · intro text h hj
    rcases hj with hj | hj <;> simp [update, load_manifest, h, hj]

/-- Closed instance of `update_abort_before_mutate`: a staging tree
without a manifest, and one whose manifest is the non-JSON byte `0`,
both leave a one-file live tree untouched and report failure. -/
theorem update_abort_before_mutate_witness :
    update (fun _ => ParsedJson.notJson) [] 4 (ExtractResult.ok [(['a'], Inode.file [1])])
        [(['b'], Inode.file [2])] = some (false, [(['b'], Inode.file [2])]) ∧
    update (fun _ => ParsedJson.notJson) [] 4
        (ExtractResult.ok [(MANIFEST, Inode.file [0])])
        [(['b'], Inode.file [2])] = some (false, [(['b'], Inode.file [2])]) := by
  constructor
  · exact (update_abort_before_mutate (fun _ => ParsedJson.notJson) [] 4
      [(['b'], Inode.file [2])] [(['a'], Inode.file [1])]).2.2.2.1 rfl
  · exact (update_abort_before_mutate (fun _ => ParsedJson.notJson) [] 4
      [(['b'], Inode.file [2])] [(MANIFEST, Inode.file [0])]).2.2.2.2 [0] rfl
      (Or.inl rfl)

/-! ### C9 — the PUT command dispatcher -/

/-- C9 counterexample: the claim states that every JSON body lacking the
`"command"` key yields status 400 — but a JSON body that is not an object
(e.g. the JSON array `[]`, which has no `"command"` key) makes
`json.pop('command')` raise an uncaught `TypeError`, so the handler
crashes and no response at all is sent. -/
theorem do_PUT_nonobject_no_response :
    @do_PUT Unit Unit [] PutBody.nonObject = none := rfl

/-- C9 (amended): for every PUT request: a body that is not valid JSON
yields status 406; a JSON *object* body lacking the `"command"` key
yields 400; a hashable command value (a string not in the dispatch table,
or any non-string hashable value) not naming a table entry yields 400; a
handler invocation raising `TypeError` (wrong keyword-argument shape)
yields 400; otherwise the handler's `(payload, content-type, status)`
triple is forwarded verbatim; a non-object JSON body, or an unhashable
command value, makes the handler raise an uncaught exception and no
response is sent. -/
theorem do_PUT_spec {α ρ : Type} (commands : List (String × (α → HandlerResult ρ)))
    (rest : α) :
    do_PUT commands PutBody.notJson =
      some (PutResponse.message "Received data is not JSON." 406) ∧
    do_PUT commands (PutBody.obj none rest) =
      some (PutResponse.message "No command specified." 400) ∧
    (∀ s, commands.find? (fun c => c.1 == s) = none →
      do_PUT commands (PutBody.obj (some (JVal.str s)) rest) =
        some (PutResponse.message "Invalid command specified." 400)) ∧
    do_PUT commands (PutBody.obj (some JVal.otherHashable) rest) =
      some (PutResponse.message "Invalid command specified." 400) ∧
    (∀ s nm f, commands.find? (fun c => c.1 == s) = some (nm, f) →
      f rest = HandlerResult.typeError →
      do_PUT commands (PutBody.obj (some (JVal.str s)) rest) =
        some (PutResponse.message "Invalid arguments specified." 400)) ∧
    (∀ s nm f p ct st, commands.find? (fun c => c.1 == s) = some (nm, f) →
      f rest = HandlerResult.ok p ct st →
      do_PUT commands (PutBody.obj (some (JVal.str s)) rest) =
        some (PutResponse.forwarded p ct st)) ∧
    do_PUT commands PutBody.nonObject = none ∧
    do_PUT commands (PutBody.obj (some JVal.unhashable) rest) = none := by
  refine ⟨rfl, rfl, ?_, rfl, ?_, ?_, rfl, rfl⟩
  · intro s h
    simp [do_PUT, h]
  · intro s nm f h hf
    simp [do_PUT, h, hf]
  · intro s nm f p ct st h hf
    simp [do_PUT, h, hf]

/-- A handler rejecting the argument `0` with a `TypeError` and otherwise
answering `200`. -/
def beepHandler : Nat → HandlerResult String :=
  fun n => if n = 0 then HandlerResult.typeError
           else HandlerResult.ok "done" "text/plain" 200

/-- A concrete one-command dispatch table for exercising `do_PUT_spec`. -/
def cmdsEx : List (String × (Nat → HandlerResult String)) :=
  [("beep", beepHandler)]

/-- Closed instance of `do_PUT_spec` on `cmdsEx`: unknown command → 400,
`TypeError` → 400, and a successful handler's triple forwarded verbatim. -/
theorem do_PUT_spec_witness :
    do_PUT cmdsEx (PutBody.obj (some (JVal.str "boop")) 1) =
      some (PutResponse.message "Invalid command specified." 400) ∧
    do_PUT cmdsEx (PutBody.obj (some (JVal.str "beep")) 0) =
      some (PutResponse.message "Invalid arguments specified." 400) ∧
    do_PUT cmdsEx (PutBody.obj (some (JVal.str "beep")) 1) =
      some (PutResponse.forwarded "done" "text/plain" 200) := by
  refine ⟨?_, ?_, ?_⟩
  · exact (do_PUT_spec cmdsEx 1).2.2.1 "boop" rfl
  · exact (do_PUT_spec cmdsEx 0).2.2.2.2.1 "beep" "beep" beepHandler rfl rfl
  · exact (do_PUT_spec cmdsEx 1).2.2.2.2.2.1 "beep" "beep" beepHandler "done"
      "text/plain" 200 rfl rfl

/-! ### C7 — the staged manifest never becomes a live file -/

/-- The merge never touches a root entry whose name does not occur among
the staged root entries: `copy_directory` iterates over `src` and writes
only at the names it yields. -/
theorem copy_directory_lookup_not_src (perm : List (List Name)) (chunk_size : Nat) :
    ∀ (pre : List Name) (src : List (Name × Inode)) (dst dst' : Tree) (n : Name),
      n ∉ src.map Prod.fst →
      copy_directory perm chunk_size pre src dst = some dst' →
      lookupEntry dst' n = lookupEntry dst n := by
  intro pre src
  induction src generalizing pre with
  | nil =>
      intro dst dst' n _ h
      simp only [copy_directory] at h
      cases h
      rfl
  | cons e rest ih =>
      intro dst dst' n hn h
      obtain ⟨m, ino⟩ := e
      simp only [List.map_cons, List.mem_cons] at hn
      push_neg at hn
      have hmn : m ≠ n := Ne.symm hn.1
      cases ino with
      | file c =>
          simp only [copy_directory] at h
          cases hcs : copy_subfile perm chunk_size (pre ++ [m]) c (lookupEntry dst m) with
          | none => rw [hcs] at h; cases h
          | some o =>
              rw [hcs] at h
              cases o with
              | none =>
                  exact ih pre dst dst' n hn.2 h
              | some i =>
                  rw [ih pre (setEntry dst m i) dst' n hn.2 h,
                    lookupEntry_setEntry_ne dst m n i hmn]
      | dir sub =>
          simp only [copy_directory] at h
          cases hld : lookupEntry dst m with
          | none =>
              simp only [hld] at h
              cases hsub : copy_directory perm chunk_size (pre ++ [m]) sub [] with
              | none => simp [hsub] at h
              | some sub' =>
                  simp only [hsub] at h
                  rw [ih pre (setEntry dst m (.dir sub')) dst' n hn.2 h,
                    lookupEntry_setEntry_ne dst m n (.dir sub') hmn]
          | some i =>
              cases i with
              | file c' =>
                  simp only [hld] at h
                  by_cases hp : (pre ++ [m]) ∈ perm
                  · rw [if_pos hp] at h
                    exact ih pre dst dst' n hn.2 h
                  · rw [if_neg hp] at h
                    cases hsub : copy_directory perm chunk_size (pre ++ [m]) sub [] with
                    | none => simp [hsub] at h
                    | some sub' =>
                        simp only [hsub] at h
                        rw [ih pre (setEntry dst m (.dir sub')) dst' n hn.2 h,
                          lookupEntry_setEntry_ne dst m n (.dir sub') hmn]
              | dir d =>
                  simp only [hld] at h
                  cases hsub : copy_directory perm chunk_size (pre ++ [m]) sub d with
                  | none => simp [hsub] at h
                  | some sub' =>
                      simp only [hsub] at h
                      rw [ih pre (setEntry dst m (.dir sub')) dst' n hn.2 h,
                        lookupEntry_setEntry_ne dst m n (.dir sub') hmn]

/-- C7: in every update, the staged manifest file `manifest.json` is
deleted from the staging directory by `load_manifest`, immediately after
parsing and before the merge begins: the staging tree handed to the merge
has no root entry named `manifest.json` any more, and consequently the
merge leaves the live root's `manifest.json` entry exactly as it was —
the manifest file is never copied into the live directory. -/
theorem manifest_never_merged (jparse : Bytes → ParsedJson) (staged : Tree)
    (man : List (List Name)) (staged' : Tree) (hwf : wfEntries staged = true)
    (h : load_manifest jparse staged = LoadResult.ok man staged') :
    lookupEntry staged' MANIFEST = none ∧
    ∀ (perm : List (List Name)) (chunk_size : Nat) (live live' : Tree),
      copy_directory perm chunk_size [] staged' live = some live' →
      lookupEntry live' MANIFEST = lookupEntry live MANIFEST := by
  have hstaged' : staged' = removeEntry staged MANIFEST := by
    simp only [load_manifest] at h
    cases hl : lookupEntry staged MANIFEST with
    | none => simp [hl] at h
    | some i =>
        simp only [hl] at h
        cases i with
        | dir _ => simp at h
        | file text =>
            cases hj : jparse text <;> simp only [hj] at h
            · cases h
            · cases h
            · cases h
              rfl
  have hnone : lookupEntry staged' MANIFEST = none := by
    rw [hstaged']
    exact lookupEntry_removeEntry_self_of_nodup staged MANIFEST (wfEntries_nodup staged hwf)
  refine ⟨hnone, ?_⟩
  intro perm chunk_size live live' hc
  have hnm : MANIFEST ∉ staged'.map Prod.fst := by
    intro hmem
    rcases List.mem_map.mp hmem with ⟨⟨nm, i⟩, hin, hfst⟩
    cases hfst
    exact lookupEntry_ne_none_of_mem staged' MANIFEST i hin hnone
  exact copy_directory_lookup_not_src perm chunk_size [] staged' live live' MANIFEST hnm hc

/-! ### C6 — POST response, timestamp recording, lock release -/

/-- C6: for every POST of an archive: if the whole update succeeds, the
handler writes the timestamp (in ISO-8601 form, the `iso` bytes produced
by `datetime.now().isoformat()`, plus the POSIX newline) to the reserved
log file inside the synchronized directory and responds HTTP 200; if the
update fails at any stage it responds HTTP 500 and the log file is not
written — the resulting tree is exactly the tree `update` returned, with
no `log_sync` applied; if the lock cannot be acquired it responds
HTTP 503; and whenever the lock was acquired it is released again, so the
final lock state is free in all those cases. -/
theorem do_POST_spec (jparse : Bytes → ParsedJson) (perm : List (List Name))
    (chunk_size : Nat) (extract : ExtractResult) (iso nl : Bytes) (live : Tree) :
    (∀ t' t'', update jparse perm chunk_size extract live = some (true, t') →
      log_sync iso nl t' = some t'' →
      do_POST LockState.free jparse perm chunk_size extract iso nl live =
        (LockState.free, some (t'', "System synchronized.", 200)) ∧
      lookupEntry t'' LOGFILE = some (Inode.file (iso ++ nl))) ∧
    (∀ t', update jparse perm chunk_size extract live = some (false, t') →
      do_POST LockState.free jparse perm chunk_size extract iso nl live =
        (LockState.free, some (t', "Synchronization failed.", 500))) ∧
    do_POST LockState.held jparse perm chunk_size extract iso nl live =
      (LockState.held, some (live, "Synchronization already in progress.", 503)) ∧
    (do_POST LockState.free jparse perm chunk_size extract iso nl live).1 =
      LockState.free := by
  refine ⟨?_, ?_, rfl, ?_⟩
  · intro t' t'' hu hl
    have ht'' : lookupEntry t'' LOGFILE = some (Inode.file (iso ++ nl)) := by
      simp only [log_sync] at hl
      cases hlk : lookupEntry t' LOGFILE with
      | none =>
          simp only [hlk] at hl
          cases hl
          simp
      | some i =>
          cases i with
          | dir _ => simp [hlk] at hl
          | file c =>
              simp only [hlk] at hl
              cases hl
              simp
    refine ⟨?_, ht''⟩
    simp [do_POST, update_digsig_data, lockEnter, lockExit, hu, hl]
  · intro t' hu
    simp [do_POST, update_digsig_data, lockEnter, lockExit, hu]
  · simp only [do_POST, lockEnter]
    cases update_digsig_data jparse perm chunk_size extract iso nl live <;> rfl

/-- `json.loads` model for the concrete scenarios: the byte `[1]` decodes
to the manifest list `[["a"]]`; anything else is not JSON. -/
def jparseEx : Bytes → ParsedJson :=
  fun b => if b = [1] then ParsedJson.list [[['a']]] else ParsedJson.notJson

/-- A staged tree holding `manifest.json` (contents `[1]`) and the file
`a` (contents `[7, 8]`). -/
def stagedEx : Tree :=
  [(MANIFEST, Inode.file [1]), (['a'], Inode.file [7, 8])]

/-- Closed instance of `do_POST_spec`: posting `stagedEx` to an empty
live directory responds 200 and records the timestamp bytes `[50] ++ [10]`
in `synclog.txt`; posting a truncated stream responds 500 with no log
file; posting against a held lock responds 503. -/
theorem do_POST_spec_witness :
    do_POST LockState.free jparseEx [] 4 (ExtractResult.ok stagedEx) [50] [10] [] =
      (LockState.free, some ([(['a'], Inode.file [7, 8]),
        (LOGFILE, Inode.file [50, 10])], "System synchronized.", 200)) ∧
    do_POST LockState.free jparseEx [] 4 ExtractResult.eofError [50] [10] [] =
      (LockState.free, some ([], "Synchronization failed.", 500)) ∧
    do_POST LockState.held jparseEx [] 4 (ExtractResult.ok stagedEx) [50] [10] [] =
      (LockState.held, some ([], "Synchronization already in progress.", 503)) := by
  have hu : update jparseEx [] 4 (ExtractResult.ok stagedEx) [] =
      some (true, [(['a'], Inode.file [7, 8])]) := by
    simp [update, load_manifest, stagedEx, jparseEx, lookupEntry, MANIFEST,
      removeEntry, copy_directory, copy_subfile, copy_file, readChunks,
      setEntry, strip_files, get_orphans, get_files, getFilesRec, strip_tree,
      startsWithDot, LOGFILE]
  have hl : log_sync [50] [10] [(['a'], Inode.file [7, 8])] =
      some [(['a'], Inode.file [7, 8]), (LOGFILE, Inode.file [50, 10])] := by
    simp [log_sync, lookupEntry, LOGFILE, setEntry]
  refine ⟨?_, ?_, ?_⟩
  · exact ((do_POST_spec jparseEx [] 4 (ExtractResult.ok stagedEx) [50] [10] []).1
      [(['a'], Inode.file [7, 8])] [(['a'], Inode.file [7, 8]),
        (LOGFILE, Inode.file [50, 10])] hu hl).1
  · exact (do_POST_spec jparseEx [] 4 ExtractResult.eofError [50] [10] []).2.1 [] rfl
  · exact (do_POST_spec jparseEx [] 4 (ExtractResult.ok stagedEx) [50] [10] []).2.2.1

/-! ### Characterizing the checksum walk -/

/-- Last segment of a path (the file's own name); `[]` for the empty path. -/
def lastSeg : List Name → Name
  | [] => []
  | [n] => n
  | _ :: n :: p => lastSeg (n :: p)

/-- Whether the path's first segment is dot-prefixed (the top-level
dotfile exclusion applies to it). -/
def headDot : List Name → Bool
  | [] => false
  | n :: _ => startsWithDot n

@[simp]
theorem getContent_nil_tree (p : List Name) : getContent [] p = none := by
  cases p with
  | nil => rfl
  | cons m p' => cases p' <;> rfl

@[simp]
theorem getContent_nil_path (t : Tree) : getContent t [] = none := rfl

theorem getContent_cons_ne (n : Name) (ino : Inode) (rest : Tree) (m : Name)
    (p' : List Name) (h : n ≠ m) :
    getContent ((n, ino) :: rest) (m :: p') = getContent rest (m :: p') := by
  cases p' with
  | nil => simp [getContent, getNode, lookupEntry, h]
  | cons a q => simp [getContent, getNode, lookupEntry, h]

theorem getContent_cons_head_file (n : Name) (fc : Bytes) (rest : Tree)
    (p' : List Name) :
    getContent ((n, .file fc) :: rest) (n :: p') =
      if p' = [] then some fc else none := by
  cases p' with
  | nil => simp [getContent, getNode, lookupEntry]
  | cons a q => simp [getContent, getNode, lookupEntry]

theorem getContent_cons_head_dir (n : Name) (sub : List (Name × Inode)) (rest : Tree)
    (p' : List Name) :
    getContent ((n, .dir sub) :: rest) (n :: p') =
      if p' = [] then none else getContent sub p' := by
  cases p' with
  | nil => simp [getContent, getNode, lookupEntry]
  | cons a q => simp [getContent, getNode, lookupEntry]

theorem getContent_head_not_mem (rest : Tree) (n : Name) (p' : List Name)
    (h : n ∉ rest.map Prod.fst) : getContent rest (n :: p') = none := by
  have hl : lookupEntry rest n = none := lookupEntry_none_of_not_mem rest n h
  cases p' with
  | nil => simp [getContent, getNode, hl]
  | cons a q => simp [getContent, getNode, hl]

@[simp]
theorem lastSeg_single (n : Name) : lastSeg [n] = n := rfl

theorem lastSeg_cons_of_ne_nil (n : Name) (p : List Name) (h : p ≠ []) :
    lastSeg (n :: p) = lastSeg p := by
  cases p with
  | nil => exact absurd rfl h
  | cons a q => rfl

/-- Unfolding `getFilesRec` at a skipped dot entry of the base directory. -/
theorem getFilesRec_cons_dot (b : Bool) (n : Name) (ino : Inode) (rest : Tree)
    (h : (b && startsWithDot n) = true) :
    getFilesRec b ((n, ino) :: rest) = getFilesRec b rest := by
  cases ino <;> simp [getFilesRec, h]

/-- Unfolding `getFilesRec` at a file named `synclog.txt`. -/
theorem getFilesRec_cons_logfile (b : Bool) (fc : Bytes) (rest : Tree)
    (h : (b && startsWithDot LOGFILE) = false) :
    getFilesRec b ((LOGFILE, Inode.file fc) :: rest) = getFilesRec b rest := by
  simp [getFilesRec, h]

/-- Unfolding `getFilesRec` at an ordinary file entry. -/
theorem getFilesRec_cons_file (b : Bool) (n : Name) (fc : Bytes) (rest : Tree)
    (h : (b && startsWithDot n) = false) (hlf : n ≠ LOGFILE) :
    getFilesRec b ((n, Inode.file fc) :: rest) = ([n], fc) :: getFilesRec b rest := by
  simp [getFilesRec, h, hlf]

/-- Unfolding `getFilesRec` at a subdirectory entry. -/
theorem getFilesRec_cons_dir (b : Bool) (n : Name) (sub : List (Name × Inode))
    (rest : Tree) (h : (b && startsWithDot n) = false) :
    getFilesRec b ((n, Inode.dir sub) :: rest) =
      (getFilesRec false sub).map (fun pc => (n :: pc.1, pc.2))
        ++ getFilesRec b rest := by
  simp [getFilesRec, h]

/-- Every path the walk yields starts with the name of an entry of the
walked directory. -/
theorem getFilesRec_head_mem (b : Bool) (t : Tree) :
    ∀ p c, (p, c) ∈ getFilesRec b t →
      ∃ hd tl, p = hd :: tl ∧ hd ∈ t.map Prod.fst := by
  induction b, t using getFilesRec.induct with
  | case1 b => intro p c h; simp [getFilesRec] at h
  | case2 b n fc rest ih =>
      intro p c h
      by_cases hd : (b && startsWithDot n) = true
      · rw [getFilesRec_cons_dot b n (Inode.file fc) rest hd] at h
        rcases ih p c h with ⟨hd', tl, hp, hmem⟩
        exact ⟨hd', tl, hp, by simp [hmem]⟩
      · have hd' : (b && startsWithDot n) = false := by simpa using hd
        by_cases hlf : n = LOGFILE
        · subst hlf
          rw [getFilesRec_cons_logfile b fc rest hd'] at h
          rcases ih p c h with ⟨hd'', tl, hp, hmem⟩
          exact ⟨hd'', tl, hp, by simp [hmem]⟩
        · rw [getFilesRec_cons_file b n fc rest hd' hlf] at h
          rcases List.mem_cons.mp h with h | h
          · have hp : p = [n] := congrArg Prod.fst h
            exact ⟨n, [], hp, by simp⟩
          · rcases ih p c h with ⟨hd'', tl, hp, hmem⟩
            exact ⟨hd'', tl, hp, by simp [hmem]⟩
  | case3 b n sub rest ih1 ih2 =>
      intro p c h
      by_cases hd : (b && startsWithDot n) = true
      · rw [getFilesRec_cons_dot b n (Inode.dir sub) rest hd] at h
        rcases ih2 p c h with ⟨hd', tl, hp, hmem⟩
        exact ⟨hd', tl, hp, by simp [hmem]⟩
      · have hd' : (b && startsWithDot n) = false := by simpa using hd
        rw [getFilesRec_cons_dir b n sub rest hd'] at h
        rcases List.mem_append.mp h with h | h
        · rcases List.mem_map.mp h with ⟨pc, _, hpc⟩
          have hp : p = n :: pc.1 := (congrArg Prod.fst hpc).symm
          exact ⟨n, pc.1, hp, by simp⟩
        · rcases ih2 p c h with ⟨hd'', tl, hp, hmem⟩
          exact ⟨hd'', tl, hp, by simp [hmem]⟩

/-- The right-hand side of the walk characterization. -/
def walkSpec (b : Bool) (t : Tree) (p : List Name) (c : Bytes) : Prop :=
  getContent t p = some c ∧ lastSeg p ≠ LOGFILE ∧ (b && headDot p) = false

/-- Shifting the walk characterization across a head entry the path does
not enter. -/
theorem walkSpec_cons_ne (b : Bool) (n : Name) (ino : Inode) (rest : Tree)
    (m : Name) (p' : List Name) (c : Bytes) (h : n ≠ m) :
    walkSpec b ((n, ino) :: rest) (m :: p') c ↔ walkSpec b rest (m :: p') c := by
  unfold walkSpec
  rw [getContent_cons_ne n ino rest m p' h]

/-- The walk yields exactly the pairs `(p, c)` such that a regular file
with contents `c` sits at path `p`, the file's own name is not
`synclog.txt`, and — when walking with `basedir = true` — the path does
not start with a dot-prefixed top-level name. -/
theorem mem_getFilesRec (b : Bool) (t : Tree) :
    wfEntries t = true → ∀ p c,
      ((p, c) ∈ getFilesRec b t ↔
        getContent t p = some c ∧ lastSeg p ≠ LOGFILE ∧ (b && headDot p) = false) := by
  induction b, t using getFilesRec.induct with
  | case1 b => intro _ p c; simp [getFilesRec]
  | case2 b n fc rest ih =>
      intro hwf p c
      rw [wfEntries_cons_iff] at hwf
      obtain ⟨hn, -, hrest⟩ := hwf
      have ih' := ih hrest
      show _ ↔ walkSpec b ((n, Inode.file fc) :: rest) p c
      cases p with
      | nil =>
          constructor
          · intro h
            rcases getFilesRec_head_mem b _ [] c h with ⟨hd', tl, hp, -⟩
            cases hp
          · intro h
            exact absurd h.1 (by simp [walkSpec])
      | cons m p' =>
          by_cases hm : m = n
          · subst hm
            have hrestnone : getContent rest (m :: p') = none :=
              getContent_head_not_mem rest m p' hn
            have hrestfalse : (m :: p', c) ∉ getFilesRec b rest := by
              intro hc
              have := ((ih' (m :: p') c).mp hc).1
              rw [hrestnone] at this
              cases this
            by_cases hd : (b && startsWithDot m) = true
            · rw [getFilesRec_cons_dot b m (Inode.file fc) rest hd]
              constructor
              · intro h; exact absurd h hrestfalse
              · intro h
                have hcond : (b && headDot (m :: p')) = true := by
                  simpa [headDot] using hd
                rw [h.2.2] at hcond
                cases hcond
            · have hd' : (b && startsWithDot m) = false := by simpa using hd
              by_cases hlf : m = LOGFILE
              · subst hlf
                rw [getFilesRec_cons_logfile b fc rest hd']
                constructor
                · intro h; exact absurd h hrestfalse
                · intro h
                  obtain ⟨hcon, hlast, -⟩ := h
                  cases p' with
                  | nil => exact absurd rfl hlast
                  | cons a q =>
                      rw [getContent_cons_head_file, if_neg (by simp)] at hcon
                      cases hcon
              · rw [getFilesRec_cons_file b m fc rest hd' hlf]
                constructor
                · intro h
                  rcases List.mem_cons.mp h with h | h
                  · have hp : m :: p' = [m] := congrArg Prod.fst h
                    have hc : c = fc := congrArg Prod.snd h
                    have hp' : p' = [] := by injection hp with _ h2
                    subst hp'
                    subst hc
                    refine ⟨by rw [getContent_cons_head_file]; simp, by simpa, ?_⟩
                    simpa [headDot] using hd'
                  · exact absurd h hrestfalse
                · intro h
                  obtain ⟨hcon, hlast, -⟩ := h
                  cases p' with
                  | nil =>
                      rw [getContent_cons_head_file, if_pos rfl] at hcon
                      injection hcon with hcon
                      exact List.mem_cons.mpr (Or.inl (by simp [hcon]))
                  | cons a q =>
                      rw [getContent_cons_head_file, if_neg (by simp)] at hcon
                      cases hcon
          · have hne : n ≠ m := fun hc => hm hc.symm
            rw [walkSpec_cons_ne b n (Inode.file fc) rest m p' c hne]
            unfold walkSpec
            rw [← ih' (m :: p') c]
            by_cases hd : (b && startsWithDot n) = true
            · rw [getFilesRec_cons_dot b n (Inode.file fc) rest hd]
            · have hd' : (b && startsWithDot n) = false := by simpa using hd
              by_cases hlf : n = LOGFILE
              · subst hlf
                rw [getFilesRec_cons_logfile b fc rest hd']
              · rw [getFilesRec_cons_file b n fc rest hd' hlf]
                constructor
                · intro h
                  rcases List.mem_cons.mp h with h | h
                  · exfalso
                    have := congrArg Prod.fst h
                    simp at this
                    exact hm this.1
                  · exact h
                · intro h
                  exact List.mem_cons.mpr (Or.inr h)
  | case3 b n sub rest ih1 ih2 =>
      intro hwf p c
      rw [wfEntries_cons_iff] at hwf
      obtain ⟨hn, hino, hrest⟩ := hwf
      have ih2' := ih2 hrest
      have ih1' := ih1 hino
      show _ ↔ walkSpec b ((n, Inode.dir sub) :: rest) p c
      cases p with
      | nil =>
          constructor
          · intro h
            rcases getFilesRec_head_mem b _ [] c h with ⟨hd', tl, hp, -⟩
            cases hp
          · intro h
            exact absurd h.1 (by simp [walkSpec])
      | cons m p' =>
          by_cases hm : m = n
          · subst hm
            have hrestnone : getContent rest (m :: p') = none :=
              getContent_head_not_mem rest m p' hn
            have hrestfalse : (m :: p', c) ∉ getFilesRec b rest := by
              intro hc
              have := ((ih2' (m :: p') c).mp hc).1
              rw [hrestnone] at this
              cases this
            by_cases hd : (b && startsWithDot m) = true
            · rw [getFilesRec_cons_dot b m (Inode.dir sub) rest hd]
              constructor
              · intro h; exact absurd h hrestfalse
              · intro h
                have hcond : (b && headDot (m :: p')) = true := by
                  simpa [headDot] using hd
                rw [h.2.2] at hcond
                cases hcond
            · have hd' : (b && startsWithDot m) = false := by simpa using hd
              rw [getFilesRec_cons_dir b m sub rest hd']
              constructor
              · intro h
                rcases List.mem_append.mp h with h | h
                · rcases List.mem_map.mp h with ⟨pc, hpcmem, hpc⟩
                  obtain ⟨q, cq⟩ := pc
                  have hq : m :: q = m :: p' := congrArg Prod.fst hpc
                  have hcq : cq = c := congrArg Prod.snd hpc
                  have hq' : q = p' := by injection hq
                  subst hq'
                  subst hcq
                  have hspec := (ih1' q cq).mp hpcmem
                  have hqne : q ≠ [] := by
                    intro hcon
                    subst hcon
                    simpa using hspec.1
                  refine ⟨?_, ?_, ?_⟩
                  · rw [getContent_cons_head_dir, if_neg hqne]
                    exact hspec.1
                  · rw [lastSeg_cons_of_ne_nil m q hqne]
                    exact hspec.2.1
                  · simpa [headDot] using hd'
                · exact absurd h hrestfalse
              · intro h
                obtain ⟨hcon, hlast, -⟩ := h
                refine List.mem_append.mpr (Or.inl ?_)
                cases hp' : p' with
                | nil =>
                    subst hp'
                    rw [getContent_cons_head_dir, if_pos rfl] at hcon
                    cases hcon
                | cons a q =>
                    subst hp'
                    rw [getContent_cons_head_dir, if_neg (by simp)] at hcon
                    have hmem' : (a :: q, c) ∈ getFilesRec false sub := by
                      rw [ih1' (a :: q) c]
                      refine ⟨hcon, ?_, by simp⟩
                      rwa [lastSeg_cons_of_ne_nil m (a :: q) (by simp)] at hlast
                    exact List.mem_map.mpr ⟨(a :: q, c), hmem', rfl⟩
          · have hne : n ≠ m := fun hc => hm hc.symm
            rw [walkSpec_cons_ne b n (Inode.dir sub) rest m p' c hne]
            unfold walkSpec
            rw [← ih2' (m :: p') c]
            by_cases hd : (b && startsWithDot n) = true
            · rw [getFilesRec_cons_dot b n (Inode.dir sub) rest hd]
            · have hd' : (b && startsWithDot n) = false := by simpa using hd
              rw [getFilesRec_cons_dir b n sub rest hd']
              constructor
              · intro h
                rcases List.mem_append.mp h with h | h
                · exfalso
                  rcases List.mem_map.mp h with ⟨pc, -, hpc⟩
                  have := congrArg Prod.fst hpc
                  simp at this
                  exact hm this.1.symm
                · exact h
              · intro h
                exact List.mem_append.mpr (Or.inr h)

/-! ### Chunked reading -/

/-- Concatenating the chunks read with any positive chunk size gives back
the whole content: the chunkwise digest input equals the whole file. -/
theorem readChunks_flatten (chunkSize : Nat) (h : chunkSize ≠ 0) :
    ∀ b : Bytes, (readChunks chunkSize b).flatten = b := by
  intro b
  induction b using readChunks.induct chunkSize with
  | case1 => simp [readChunks]
  | case2 x rest h0 => exact absurd h0 h
  | case3 x rest h0 ih =>
      unfold readChunks
      rw [if_neg h0]
      simp only [List.flatten_cons]
      rw [ih]
      exact List.take_append_drop chunkSize (x :: rest)

/-! ### The walk yields each file once -/

/-- Under the well-formedness invariant the walk's path list has no
duplicates: one pair per regular file. -/
theorem getFilesRec_paths_nodup (b : Bool) (t : Tree) :
    wfEntries t = true → ((getFilesRec b t).map Prod.fst).Nodup := by
  induction b, t using getFilesRec.induct with
  | case1 b => intro _; simp [getFilesRec]
  | case2 b n fc rest ih =>
      intro hwf
      rw [wfEntries_cons_iff] at hwf
      obtain ⟨hn, -, hrest⟩ := hwf
      by_cases hd : (b && startsWithDot n) = true
      · rw [getFilesRec_cons_dot b n (Inode.file fc) rest hd]
        exact ih hrest
      · have hd' : (b && startsWithDot n) = false := by simpa using hd
        by_cases hlf : n = LOGFILE
        · subst hlf
          rw [getFilesRec_cons_logfile b fc rest hd']
          exact ih hrest
        · rw [getFilesRec_cons_file b n fc rest hd' hlf]
          simp only [List.map_cons, List.nodup_cons]
          refine ⟨?_, ih hrest⟩
          intro hmem
          rcases List.mem_map.mp hmem with ⟨pc, hpcmem, hpc⟩
          obtain ⟨q, cq⟩ := pc
          rcases getFilesRec_head_mem b rest q cq hpcmem with ⟨hd'', tl, hq, hhd⟩
          rw [hq] at hpc
          have : hd'' = n := by
            have := hpc
            simp at this
            exact this.1
          subst this
          exact hn hhd
  | case3 b n sub rest ih1 ih2 =>
      intro hwf
      rw [wfEntries_cons_iff] at hwf
      obtain ⟨hn, hino, hrest⟩ := hwf
      by_cases hd : (b && startsWithDot n) = true
      · rw [getFilesRec_cons_dot b n (Inode.dir sub) rest hd]
        exact ih2 hrest
      · have hd' : (b && startsWithDot n) = false := by simpa using hd
        rw [getFilesRec_cons_dir b n sub rest hd']
        rw [List.map_append]
        apply List.Nodup.append
        · rw [List.map_map]
          have : (Prod.fst ∘ fun pc : List Name × Bytes => (n :: pc.1, pc.2)) =
              (fun p => n :: p) ∘ Prod.fst := rfl
          rw [this, ← List.map_map]
          exact (ih1 hino).map (fun a b' h => by injection h)
        · exact ih2 hrest
        · intro p hp1 hp2
          rw [List.map_map] at hp1
          rcases List.mem_map.mp hp1 with ⟨pc, -, hpc⟩
          rcases List.mem_map.mp hp2 with ⟨pc', hpc'mem, hpc'⟩
          obtain ⟨q', cq'⟩ := pc'
          rcases getFilesRec_head_mem b rest q' cq' hpc'mem with ⟨hd'', tl, hq, hhd⟩
          rw [← hpc'] at hpc
          rw [hq] at hpc
          have : n = hd'' := by
            have := hpc
            simp at this
            exact this.1
          rw [this] at hn
          exact hn hhd

/-! ### Pointwise behaviour of the pruning phase -/

/-- Resolving one path step: the node at `m :: p'` is determined by the
entry named `m`. -/
def nodeVia : Option Inode → List Name → Option Inode
  | some i, [] => some i
  | some (.dir sub), a :: q => getNode sub (a :: q)
  | _, _ => none

theorem getNode_cons (t : Tree) (m : Name) (p' : List Name) :
    getNode t (m :: p') = nodeVia (lookupEntry t m) p' := by
  cases p' with
  | nil =>
      simp only [getNode]
      cases lookupEntry t m with
      | none => rfl
      | some i => cases i <;> rfl
  | cons a q =>
      simp only [getNode]
      cases lookupEntry t m with
      | none => rfl
      | some i => cases i <;> rfl

/-- `wfInode`: the sub-well-formedness of one entry's inode. -/
def wfInode : Inode → Bool
  | .file _ => true
  | .dir sub => wfEntries sub

theorem wfEntries_cons_iff' (n : Name) (ino : Inode) (rest : Tree) :
    wfEntries ((n, ino) :: rest) = true ↔
      n ∉ rest.map Prod.fst ∧ wfInode ino = true ∧ wfEntries rest = true := by
  cases ino <;> simp [wfEntries, wfInode, and_assoc]

theorem wfInode_of_lookup (t : Tree) (n : Name) (i : Inode)
    (hwf : wfEntries t = true) (h : lookupEntry t n = some i) : wfInode i = true := by
  induction t with
  | nil => cases h
  | cons e rest ih =>
      obtain ⟨m, j⟩ := e
      rw [wfEntries_cons_iff'] at hwf
      by_cases hm : m = n
      · rw [lookupEntry_cons, if_pos hm] at h
        cases h
        exact hwf.2.1
      · rw [lookupEntry_cons, if_neg hm] at h
        exact ih hwf.2.2 h

theorem map_fst_setEntry (t : Tree) (n : Name) (i : Inode) :
    (setEntry t n i).map Prod.fst =
      if n ∈ t.map Prod.fst then t.map Prod.fst else t.map Prod.fst ++ [n] := by
  induction t with
  | nil => simp [setEntry]
  | cons e rest ih =>
      obtain ⟨m, j⟩ := e
      by_cases hm : m = n
      · subst hm
        simp [setEntry]
      · have hne : ¬ n = m := fun hc => hm hc.symm
        simp only [setEntry, if_neg hm, List.map_cons, ih, List.mem_cons]
        by_cases hmem : n ∈ rest.map Prod.fst
        · simp [hmem, hne]
        · simp [hmem, hne]

theorem wfEntries_setEntry (t : Tree) (n : Name) (i : Inode)
    (hwf : wfEntries t = true) (hi : wfInode i = true) :
    wfEntries (setEntry t n i) = true := by
  induction t with
  | nil =>
      rw [setEntry_nil, wfEntries_cons_iff']
      exact ⟨by simp, hi, by simp [wfEntries]⟩
  | cons e rest ih =>
      obtain ⟨m, j⟩ := e
      rw [wfEntries_cons_iff'] at hwf
      by_cases hm : m = n
      · subst hm
        rw [setEntry_cons_self, wfEntries_cons_iff']
        exact ⟨hwf.1, hi, hwf.2.2⟩
      · rw [setEntry_cons_ne m n j i rest hm, wfEntries_cons_iff']
        refine ⟨?_, hwf.2.1, ih hwf.2.2⟩
        rw [map_fst_setEntry]
        by_cases hmem : n ∈ rest.map Prod.fst
        · simp only [if_pos hmem]
          exact hwf.1
        · simp only [if_neg hmem, List.mem_append]
          intro hc
          rcases hc with hc | hc
          · exact hwf.1 hc
          · simp at hc
            exact hm hc

/-- Two trees agreeing on one root entry agree on contents below it. -/
theorem getContent_congr_lookup (t1 t2 : Tree) (m : Name) (p' : List Name)
    (h : lookupEntry t1 m = lookupEntry t2 m) :
    getContent t1 (m :: p') = getContent t2 (m :: p') := by
  simp [getContent, getNode_cons, h]

theorem getContent_of_lookup_none (t : Tree) (m : Name) (p' : List Name)
    (h : lookupEntry t m = none) : getContent t (m :: p') = none := by
  cases p' <;> simp [getContent, getNode_cons, h, nodeVia]

theorem getContent_of_lookup_file (t : Tree) (m : Name) (c : Bytes) (p' : List Name)
    (h : lookupEntry t m = some (Inode.file c)) :
    getContent t (m :: p') = if p' = [] then some c else none := by
  cases p' <;> simp [getContent, getNode_cons, h, nodeVia]

theorem getContent_of_lookup_dir (t : Tree) (m : Name) (sub : List (Name × Inode))
    (p' : List Name) (h : lookupEntry t m = some (Inode.dir sub)) :
    getContent t (m :: p') = if p' = [] then none else getContent sub p' := by
  cases p' with
  | nil => simp [getContent, getNode_cons, h, nodeVia]
  | cons a q =>
      rw [if_neg (by simp)]
      unfold getContent
      rw [getNode_cons, h]
      rfl

/-- Unlinking the file at `q` does not change the content at any other
path. -/
theorem removeFileAt_getContent_ne :
    ∀ (t : Tree) (q : List Name), wfEntries t = true →
      ∀ p, p ≠ q → getContent (removeFileAt t q) p = getContent t p := by
  intro t q
  induction t, q using removeFileAt.induct with
  | case1 t =>
      intro _ p _
      simp [removeFileAt]
  | case2 t n c hl =>
      intro hwf p hpq
      have e : removeFileAt t [n] = removeEntry t n := by
        simp [removeFileAt, hl]
      rw [e]
      cases p with
      | nil => simp
      | cons m p' =>
          by_cases hm : m = n
          · subst hm
            have hp' : p' ≠ [] := by
              intro hc
              subst hc
              exact hpq rfl
            have hlr : lookupEntry (removeEntry t m) m = none :=
              lookupEntry_removeEntry_self_of_nodup t m (wfEntries_nodup t hwf)
            cases p' with
            | nil => exact absurd rfl hp'
            | cons a q'' =>
                rw [getContent_of_lookup_none _ m (a :: q'') hlr,
                  getContent_of_lookup_file t m c (a :: q'') hl, if_neg (by simp)]
          · exact getContent_congr_lookup _ _ m p'
              (lookupEntry_removeEntry_ne t n m (fun hc => hm hc.symm))
  | case3 t n hno =>
      intro hwf p hpq
      have e : removeFileAt t [n] = t := by
        cases hl : lookupEntry t n with
        | none => simp [removeFileAt, hl]
        | some i =>
            cases i with
            | file c => exact absurd hl (by intro hc; exact hno c hc)
            | dir sub => simp [removeFileAt, hl]
      rw [e]
  | case4 t n n' q' sub hl ih =>
      intro hwf p hpq
      have e : removeFileAt t (n :: n' :: q') =
          setEntry t n (.dir (removeFileAt sub (n' :: q'))) := by
        simp [removeFileAt, hl]
      rw [e]
      cases p with
      | nil => simp
      | cons m p' =>
          by_cases hm : m = n
          · subst hm
            have hp' : p' ≠ n' :: q' := by
              intro hc
              subst hc
              exact hpq rfl
            have hls : lookupEntry (setEntry t m (Inode.dir (removeFileAt sub (n' :: q')))) m =
                some (Inode.dir (removeFileAt sub (n' :: q'))) :=
              lookupEntry_setEntry_self t m _
            cases p' with
            | nil =>
                rw [getContent_of_lookup_dir _ m _ [] hls,
                  getContent_of_lookup_dir t m sub [] hl]
                simp
            | cons a q'' =>
                have hwfsub : wfEntries sub = true :=
                  wfInode_of_lookup t m (Inode.dir sub) hwf hl
                rw [getContent_of_lookup_dir _ m _ (a :: q'') hls,
                  getContent_of_lookup_dir t m sub (a :: q'') hl,
                  if_neg (by simp), if_neg (by simp)]
                exact ih hwfsub (a :: q'') hp' 
          · exact getContent_congr_lookup _ _ m p'
              (lookupEntry_setEntry_ne t n m _ (fun hc => hm hc.symm))
  | case5 t n n' q' hno =>
      intro hwf p hpq
      have e : removeFileAt t (n :: n' :: q') = t := by
        cases hl : lookupEntry t n with
        | none => simp [removeFileAt, hl]
        | some i =>
            cases i with
            | file c => simp [removeFileAt, hl]
            | dir sub => exact absurd hl (by intro hc; exact hno sub hc)
      rw [e]

/-- Unlinking the file at `q` leaves no content at `q`. -/
theorem removeFileAt_getContent_self :
    ∀ (t : Tree) (q : List Name), wfEntries t = true →
      getContent (removeFileAt t q) q = none := by
  intro t q
  induction t, q using removeFileAt.induct with
  | case1 t => intro _; simp [removeFileAt]
  | case2 t n c hl =>
      intro hwf
      have e : removeFileAt t [n] = removeEntry t n := by
        simp [removeFileAt, hl]
      rw [e]
      have hlr : lookupEntry (removeEntry t n) n = none :=
        lookupEntry_removeEntry_self_of_nodup t n (wfEntries_nodup t hwf)
      rw [getContent_of_lookup_none _ n [] hlr]
  | case3 t n hno =>
      intro hwf
      have e : removeFileAt t [n] = t := by
        cases hl : lookupEntry t n with
        | none => simp [removeFileAt, hl]
        | some i =>
            cases i with
            | file c => exact absurd hl (by intro hc; exact hno c hc)
            | dir sub => simp [removeFileAt, hl]
      rw [e]
      cases hl : lookupEntry t n with
      | none => rw [getContent_of_lookup_none t n [] hl]
      | some i =>
          cases i with
          | file c => exact absurd hl (by intro hc; exact hno c hc)
          | dir sub =>
              rw [getContent_of_lookup_dir t n sub [] hl]
              simp
  | case4 t n n' q' sub hl ih =>
      intro hwf
      have e : removeFileAt t (n :: n' :: q') =
          setEntry t n (.dir (removeFileAt sub (n' :: q'))) := by
        simp [removeFileAt, hl]
      rw [e]
      have hls : lookupEntry (setEntry t n (Inode.dir (removeFileAt sub (n' :: q')))) n =
          some (Inode.dir (removeFileAt sub (n' :: q'))) :=
        lookupEntry_setEntry_self t n _
      have hwfsub : wfEntries sub = true := wfInode_of_lookup t n (Inode.dir sub) hwf hl
      rw [getContent_of_lookup_dir _ n _ (n' :: q') hls, if_neg (by simp)]
      exact ih hwfsub
  | case5 t n n' q' hno =>
      intro hwf
      have e : removeFileAt t (n :: n' :: q') = t := by
        cases hl : lookupEntry t n with
        | none => simp [removeFileAt, hl]
        | some i =>
            cases i with
            | file c => simp [removeFileAt, hl]
            | dir sub => exact absurd hl (by intro hc; exact hno sub hc)
      rw [e]
      cases hl : lookupEntry t n with
      | none => rw [getContent_of_lookup_none t n (n' :: q') hl]
      | some i =>
          cases i with
          | file c =>
              rw [getContent_of_lookup_file t n c (n' :: q') hl, if_neg (by simp)]
          | dir sub => exact absurd hl (by intro hc; exact hno sub hc)

/-- Unlinking a file preserves the well-formedness invariant. -/
theorem wfEntries_removeFileAt :
    ∀ (t : Tree) (q : List Name), wfEntries t = true →
      wfEntries (removeFileAt t q) = true := by
  intro t q
  induction t, q using removeFileAt.induct with
  | case1 t => intro hwf; simpa [removeFileAt] using hwf
  | case2 t n c hl =>
      intro hwf
      have e : removeFileAt t [n] = removeEntry t n := by
        simp [removeFileAt, hl]
      rw [e]
      exact wfEntries_removeEntry t n hwf
  | case3 t n hno =>
      intro hwf
      have e : removeFileAt t [n] = t := by
        cases hl : lookupEntry t n with
        | none => simp [removeFileAt, hl]
        | some i =>
            cases i with
            | file c => exact absurd hl (by intro hc; exact hno c hc)
            | dir sub => simp [removeFileAt, hl]
      rw [e]
      exact hwf
  | case4 t n n' q' sub hl ih =>
      intro hwf
      have e : removeFileAt t (n :: n' :: q') =
          setEntry t n (.dir (removeFileAt sub (n' :: q'))) := by
        simp [removeFileAt, hl]
      rw [e]
      have hwfsub : wfEntries sub = true := wfInode_of_lookup t n (Inode.dir sub) hwf hl
      exact wfEntries_setEntry t n _ hwf (by simpa [wfInode] using ih hwfsub)
  | case5 t n n' q' hno =>
      intro hwf
      have e : removeFileAt t (n :: n' :: q') = t := by
        cases hl : lookupEntry t n with
        | none => simp [removeFileAt, hl]
        | some i =>
            cases i with
            | file c => simp [removeFileAt, hl]
            | dir sub => exact absurd hl (by intro hc; exact hno sub hc)
      rw [e]
      exact hwf

/-- Folding file removals over a list of paths: contents disappear at the
listed paths and are untouched elsewhere. -/
theorem foldl_removeFileAt_getContent (L : List (List Name)) :
    ∀ t : Tree, wfEntries t = true → ∀ p,
      getContent (L.foldl removeFileAt t) p =
        if p ∈ L then none else getContent t p := by
  induction L with
  | nil => intro t _ p; simp
  | cons q L' ih =>
      intro t hwf p
      rw [List.foldl_cons]
      rw [ih (removeFileAt t q) (wfEntries_removeFileAt t q hwf) p]
      by_cases hpL : p ∈ L'
      · simp [hpL]
      · by_cases hpq : p = q
        · subst hpq
          simp [hpL, removeFileAt_getContent_self t p hwf]
        · have : p ∉ (q :: L') := by
            intro hc
            rcases List.mem_cons.mp hc with hc | hc
            · exact hpq hc
            · exact hpL hc
          simp [hpL, this, removeFileAt_getContent_ne t q hwf p hpq, hpq]

/-- Folding file removals preserves the well-formedness invariant. -/
theorem foldl_removeFileAt_wf (L : List (List Name)) :
    ∀ t : Tree, wfEntries t = true →
      wfEntries (L.foldl removeFileAt t) = true := by
  induction L with
  | nil => intro t hwf; simpa using hwf
  | cons q L' ih =>
      intro t hwf
      rw [List.foldl_cons]
      exact ih (removeFileAt t q) (wfEntries_removeFileAt t q hwf)

/-- Membership in the orphan list. -/
theorem mem_get_orphans (t : Tree) (manifest : List (List Name)) (p : List Name) :
    p ∈ get_orphans t manifest ↔ p ∈ get_files t ∧ p ∉ manifest := by
  simp [get_orphans, List.mem_filter]

/-- `strip_files` removes exactly the walked files that are absent from
the manifest; every other path keeps its content. -/
theorem strip_files_getContent (t : Tree) (manifest : List (List Name))
    (hwf : wfEntries t = true) (p : List Name) :
    getContent (strip_files t manifest) p =
      if p ∈ get_files t ∧ p ∉ manifest then none else getContent t p := by
  rw [strip_files, foldl_removeFileAt_getContent (get_orphans t manifest) t hwf p]
  by_cases h : p ∈ get_orphans t manifest
  · rw [if_pos h, if_pos ((mem_get_orphans t manifest p).mp h)]
  · rw [if_neg h, if_neg (fun hc => h ((mem_get_orphans t manifest p).mpr hc))]

/-- `strip_files` preserves the well-formedness invariant. -/
theorem strip_files_wf (t : Tree) (manifest : List (List Name))
    (hwf : wfEntries t = true) : wfEntries (strip_files t manifest) = true :=
  foldl_removeFileAt_wf (get_orphans t manifest) t hwf

/-! ### Behaviour of `strip_tree` -/

theorem strip_tree_nil (b : Bool) : strip_tree b [] = [] := by
  simp [strip_tree]

theorem strip_tree_cons_file (b : Bool) (n : Name) (c : Bytes) (rest : Tree) :
    strip_tree b ((n, Inode.file c) :: rest) = (n, Inode.file c) :: strip_tree b rest := by
  simp [strip_tree]

theorem strip_tree_cons_dir_dot (b : Bool) (n : Name) (sub : List (Name × Inode))
    (rest : Tree) (h : (b && startsWithDot n) = true) :
    strip_tree b ((n, Inode.dir sub) :: rest) =
      (n, Inode.dir sub) :: strip_tree b rest := by
  simp [strip_tree, h]

theorem strip_tree_cons_dir (b : Bool) (n : Name) (sub : List (Name × Inode))
    (rest : Tree) (h : (b && startsWithDot n) = false) :
    strip_tree b ((n, Inode.dir sub) :: rest) =
      (if (strip_tree false sub).isEmpty then []
       else [(n, Inode.dir (strip_tree false sub))]) ++ strip_tree b rest := by
  rw [strip_tree]
  simp only [h]
  rfl

/-- `strip_tree` removes only (empty) directories: the content of every
file path is untouched. -/
theorem strip_tree_getContent :
    ∀ (b : Bool) (t : Tree), wfEntries t = true →
      ∀ p, getContent (strip_tree b t) p = getContent t p := by
  intro b t
  induction b, t using strip_tree.induct with
  | case1 b => intro _ p; rw [strip_tree_nil]
  | case2 b n c rest ih =>
      intro hwf p
      rw [wfEntries_cons_iff'] at hwf
      rw [strip_tree_cons_file]
      cases p with
      | nil => simp
      | cons m p' =>
          by_cases hm : m = n
          · subst hm
            rw [getContent_cons_head_file m c (strip_tree b rest) p',
              getContent_cons_head_file m c rest p']
          · rw [getContent_cons_ne n _ _ m p' (fun hc => hm hc.symm),
              getContent_cons_ne n _ _ m p' (fun hc => hm hc.symm)]
            exact ih hwf.2.2 (m :: p')
  | case3 b n sub rest ih1 ih2 =>
      intro hwf p
      rw [wfEntries_cons_iff'] at hwf
      obtain ⟨hn, hsub, hrest⟩ := hwf
      have hsub' : wfEntries sub = true := by simpa [wfInode] using hsub
      by_cases hd : (b && startsWithDot n) = true
      · rw [strip_tree_cons_dir_dot b n sub rest hd]
        cases p with
        | nil => simp
        | cons m p' =>
            by_cases hm : m = n
            · subst hm
              rw [getContent_cons_head_dir m sub (strip_tree b rest) p',
                getContent_cons_head_dir m sub rest p']
            · rw [getContent_cons_ne n _ _ m p' (fun hc => hm hc.symm),
                getContent_cons_ne n _ _ m p' (fun hc => hm hc.symm)]
              exact ih2 hrest (m :: p')
      · have hd' : (b && startsWithDot n) = false := by simpa using hd
        rw [strip_tree_cons_dir b n sub rest hd']
        by_cases he : (strip_tree false sub).isEmpty
        · rw [if_pos he, List.nil_append]
          have hsubnil : strip_tree false sub = [] := by
            simpa [List.isEmpty_iff] using he
          cases p with
          | nil => simp
          | cons m p' =>
              by_cases hm : m = n
              · subst hm
                rw [ih2 hrest (m :: p'), getContent_head_not_mem rest m p' hn,
                  getContent_cons_head_dir m sub rest p']
                cases p' with
                | nil => simp
                | cons a q =>
                    rw [if_neg (by simp)]
                    have hkeep := ih1 hsub' (a :: q)
                    rw [hsubnil] at hkeep
                    rw [← hkeep]
                    simp
              · rw [getContent_cons_ne n _ _ m p' (fun hc => hm hc.symm)]
                exact ih2 hrest (m :: p')
        · rw [if_neg he, List.singleton_append]
          cases p with
          | nil => simp
          | cons m p' =>
              by_cases hm : m = n
              · subst hm
                rw [getContent_cons_head_dir m (strip_tree false sub) (strip_tree b rest) p',
                  getContent_cons_head_dir m sub rest p']
                cases p' with
                | nil => rfl
                | cons a q =>
                    rw [if_neg (by simp), if_neg (by simp)]
                    exact ih1 hsub' (a :: q)
              · rw [getContent_cons_ne n _ _ m p' (fun hc => hm hc.symm),
                  getContent_cons_ne n _ _ m p' (fun hc => hm hc.symm)]
                exact ih2 hrest (m :: p')

/-- Names surviving `strip_tree` are a sublist of the original names. -/
theorem strip_tree_map_fst_sublist (b : Bool) (t : Tree) :
    ((strip_tree b t).map Prod.fst).Sublist (t.map Prod.fst) := by
  induction b, t using strip_tree.induct with
  | case1 b => rw [strip_tree_nil]
  | case2 b n c rest ih =>
      rw [strip_tree_cons_file]
      simpa using ih
  | case3 b n sub rest ih1 ih2 =>
      by_cases hd : (b && startsWithDot n) = true
      · rw [strip_tree_cons_dir_dot b n sub rest hd]
        simpa using ih2
      · have hd' : (b && startsWithDot n) = false := by simpa using hd
        rw [strip_tree_cons_dir b n sub rest hd']
        by_cases he : (strip_tree false sub).isEmpty
        · rw [if_pos he, List.nil_append]
          exact ih2.cons _
        · rw [if_neg he, List.singleton_append]
          simpa using ih2

/-- `strip_tree` preserves the well-formedness invariant. -/
theorem strip_tree_wf :
    ∀ (b : Bool) (t : Tree), wfEntries t = true →
      wfEntries (strip_tree b t) = true := by
  intro b t
  induction b, t using strip_tree.induct with
  | case1 b => intro h; rw [strip_tree_nil]; exact h
  | case2 b n c rest ih =>
      intro hwf
      rw [wfEntries_cons_iff'] at hwf
      rw [strip_tree_cons_file, wfEntries_cons_iff']
      refine ⟨?_, rfl, ih hwf.2.2⟩
      intro hc
      exact hwf.1 ((strip_tree_map_fst_sublist b rest).subset hc)
  | case3 b n sub rest ih1 ih2 =>
      intro hwf
      rw [wfEntries_cons_iff'] at hwf
      obtain ⟨hn, hsub, hrest⟩ := hwf
      have hsub' : wfEntries sub = true := by simpa [wfInode] using hsub
      by_cases hd : (b && startsWithDot n) = true
      · rw [strip_tree_cons_dir_dot b n sub rest hd, wfEntries_cons_iff']
        refine ⟨?_, by simpa [wfInode] using hsub', ih2 hrest⟩
        intro hc
        exact hn ((strip_tree_map_fst_sublist b rest).subset hc)
      · have hd' : (b && startsWithDot n) = false := by simpa using hd
        rw [strip_tree_cons_dir b n sub rest hd']
        by_cases he : (strip_tree false sub).isEmpty
        · rw [if_pos he, List.nil_append]
          exact ih2 hrest
        · rw [if_neg he, List.singleton_append, wfEntries_cons_iff']
          refine ⟨?_, by simpa [wfInode] using ih1 hsub', ih2 hrest⟩
          intro hc
          exact hn ((strip_tree_map_fst_sublist b rest).subset hc)

/-- After `strip_tree`, an empty directory can sit only below a
dot-prefixed top-level entry of a base-directory walk (those entries are
not descended into); with `basedir = false` no empty directory survives
at all. -/
theorem strip_tree_no_empty_dir :
    ∀ (b : Bool) (t : Tree) (p : List Name),
      getNode (strip_tree b t) p = some (Inode.dir []) →
      b = true ∧ headDot p = true := by
  intro b t
  induction b, t using strip_tree.induct with
  | case1 b =>
      intro p h
      rw [strip_tree_nil] at h
      cases p with
      | nil => cases h
      | cons m p' =>
          rw [getNode_cons] at h
          simp [lookupEntry, nodeVia] at h
  | case2 b n c rest ih =>
      intro p h
      rw [strip_tree_cons_file] at h
      cases p with
      | nil => cases h
      | cons m p' =>
          rw [getNode_cons, lookupEntry_cons] at h
          by_cases hm : n = m
          · rw [if_pos hm] at h
            cases p' with
            | nil => cases h
            | cons a q => simp [nodeVia] at h
          · rw [if_neg hm] at h
            rw [← getNode_cons] at h
            exact ih (m :: p') h
  | case3 b n sub rest ih1 ih2 =>
      intro p h
      by_cases hd : (b && startsWithDot n) = true
      · rw [strip_tree_cons_dir_dot b n sub rest hd] at h
        cases p with
        | nil => cases h
        | cons m p' =>
            rw [getNode_cons, lookupEntry_cons] at h
            by_cases hm : n = m
            · subst hm
              refine ⟨?_, ?_⟩
              · revert hd
                cases b <;> simp
              · have : startsWithDot n = true := by
                  revert hd
                  cases b <;> simp
                simp [headDot, this]
            · rw [if_neg hm] at h
              rw [← getNode_cons] at h
              exact ih2 (m :: p') h
      · have hd' : (b && startsWithDot n) = false := by simpa using hd
        rw [strip_tree_cons_dir b n sub rest hd'] at h
        by_cases he : (strip_tree false sub).isEmpty
        · rw [if_pos he, List.nil_append] at h
          exact ih2 p h
        · rw [if_neg he, List.singleton_append] at h
          cases p with
          | nil => cases h
          | cons m p' =>
              rw [getNode_cons, lookupEntry_cons] at h
              by_cases hm : n = m
              · rw [if_pos hm] at h
                cases p' with
                | nil =>
                    simp only [nodeVia] at h
                    injection h with h
                    injection h with h
                    rw [h] at he
                    simp at he
                | cons a q =>
                    simp only [nodeVia] at h
                    rcases ih1 (a :: q) h with ⟨hfalse, -⟩
                    cases hfalse
              · rw [if_neg hm] at h
                rw [← getNode_cons] at h
                exact ih2 (m :: p') h

/-! ### C5 — the manifest generator -/

/-- C5: for every root directory, `gen_manifest` yields one pair per
regular file reachable by recursive descent — excluding files named
`synclog.txt` and excluding dot-prefixed entries at the top level only —
consisting of the file's relative path segments and the digest of the
file's raw bytes, where the chunkwise digest (any positive chunk size,
in particular the 4 MiB default) equals the digest of the whole file
content read at once: the digest argument assembled chunk by chunk is the
file's full byte sequence. -/
theorem gen_manifest_spec (h : Bytes → String) (chunk_size : Nat) (t : Tree)
    (hwf : wfEntries t = true) (hcs : chunk_size ≠ 0) :
    gen_manifest h chunk_size t =
      (getFilesRec true t).map (fun pc => (pc.1, h pc.2)) ∧
    (gen_manifest h chunk_size t).map Prod.fst = get_files t ∧
    (get_files t).Nodup ∧
    (∀ p d, (p, d) ∈ gen_manifest h chunk_size t ↔
      ∃ c, getContent t p = some c ∧ d = h c ∧
        lastSeg p ≠ LOGFILE ∧ headDot p = false) := by
  have hflat : ∀ c : Bytes, (readChunks chunk_size c).flatten = c :=
    readChunks_flatten chunk_size hcs
  refine ⟨?_, ?_, ?_, ?_⟩
  · simp [gen_manifest, hflat]
  · simp [gen_manifest, get_files, List.map_map]
  · exact getFilesRec_paths_nodup true t hwf
  · intro p d
    constructor
    · intro hmem
      rw [gen_manifest] at hmem
      rcases List.mem_map.mp hmem with ⟨⟨q, cq⟩, hqmem, hq⟩
      have hqp : q = p := by
        have := congrArg Prod.fst hq
        simpa using this
      have hqd : h ((readChunks chunk_size cq).flatten) = d := by
        have := congrArg Prod.snd hq
        simpa using this
      subst hqp
      have hw := (mem_getFilesRec true t hwf q cq).mp hqmem
      refine ⟨cq, hw.1, ?_, hw.2.1, by simpa using hw.2.2⟩
      rw [← hqd, hflat cq]
    · intro hspec
      rcases hspec with ⟨c, hc, hd, hlast, hhd⟩
      have hw : (p, c) ∈ getFilesRec true t :=
        (mem_getFilesRec true t hwf p c).mpr ⟨hc, hlast, by simpa using hhd⟩
      rw [gen_manifest]
      refine List.mem_map.mpr ⟨(p, c), hw, ?_⟩
      simp [hflat c, hd]

/-- A concrete tree for exercising the manifest generator: one ordinary
file, one reserved log file, one dotfile. -/
def manTreeEx : Tree :=
  [(['a'], Inode.file [1, 2]), (LOGFILE, Inode.file [3]),
   (['.', 'x'], Inode.file [4]), (['d'], Inode.dir [(['b'], Inode.file [5])])]

/-- Closed instance of `gen_manifest_spec`: the pair for `a` is produced
with the digest of its whole contents, the walked paths are unique, and
neither the log file nor the dotfile produces an entry. -/
theorem gen_manifest_spec_witness :
    (([['a']], "digest") ∈
      gen_manifest (fun c => if c = [1, 2] then "digest" else "other") 1 manTreeEx) ∧
    (get_files manTreeEx).Nodup ∧
    (∀ d, ([LOGFILE], d) ∉
      gen_manifest (fun c => if c = [1, 2] then "digest" else "other") 1 manTreeEx) := by
  have hwf : wfEntries manTreeEx = true := by
    simp [manTreeEx, wfEntries, LOGFILE]
  have hspec := gen_manifest_spec (fun c => if c = [1, 2] then "digest" else "other")
    1 manTreeEx hwf (by decide)
  refine ⟨?_, hspec.2.2.1, ?_⟩
  · refine (hspec.2.2.2 [['a']] "digest").mpr ⟨[1, 2], ?_, by simp, by decide, by decide⟩
    simp [manTreeEx, getContent, getNode, lookupEntry]
  · intro d hmem
    rcases (hspec.2.2.2 [LOGFILE] d).mp hmem with ⟨c, -, -, hlast, -⟩
    exact hlast rfl

/-! ### C10 — the reserved log name is excluded at every level -/

/-- C10: because the walk compares each file's path relative to the
current recursion directory against the log-file name, any file named
`synclog.txt` — in any subdirectory, not only at the tree root — is never
walked: it appears in no generated manifest, and since pruning
enumerates files via the same walk, `strip_files` never deletes it. -/
theorem logfile_excluded_everywhere (t : Tree) (hwf : wfEntries t = true)
    (p : List Name) (hlast : lastSeg p = LOGFILE) :
    p ∉ get_files t ∧
    (∀ (h : Bytes → String) (chunk_size : Nat) (d : String),
      (p, d) ∉ gen_manifest h chunk_size t) ∧
    (∀ manifest, getContent (strip_files t manifest) p = getContent t p) := by
  have hnw : p ∉ get_files t := by
    intro hc
    rcases List.mem_map.mp hc with ⟨⟨q, cq⟩, hqmem, hq⟩
    have hqp : q = p := hq
    subst hqp
    exact ((mem_getFilesRec true t hwf q cq).mp hqmem).2.1 hlast
  refine ⟨hnw, ?_, ?_⟩
  · intro h chunk_size d hc
    rw [gen_manifest] at hc
    rcases List.mem_map.mp hc with ⟨⟨q, cq⟩, hqmem, hq⟩
    have hqp : q = p := by
      have := congrArg Prod.fst hq
      simpa using this
    subst hqp
    exact ((mem_getFilesRec true t hwf q cq).mp hqmem).2.1 hlast
  · intro manifest
    rw [strip_files_getContent t manifest hwf p, if_neg]
    intro hc
    exact hnw hc.1

/-- A live tree with a `synclog.txt` inside a subdirectory. -/
def logTreeEx : Tree :=
  [(['d'], Inode.dir [(LOGFILE, Inode.file [9]), (['f'], Inode.file [1])])]

/-- Closed instance of `logfile_excluded_everywhere`: `d/synclog.txt` is
not walked and survives pruning against an empty manifest untouched. -/
theorem logfile_excluded_everywhere_witness :
    [['d'], LOGFILE] ∉ get_files logTreeEx ∧
    getContent (strip_files logTreeEx []) [['d'], LOGFILE] =
      getContent logTreeEx [['d'], LOGFILE] := by
  have hwf : wfEntries logTreeEx = true := by
    simp [logTreeEx, wfEntries, LOGFILE]
  have hspec := logfile_excluded_everywhere logTreeEx hwf [['d'], LOGFILE] rfl
  exact ⟨hspec.1, hspec.2.2 []⟩

/-! ### C4 — what pruning deletes -/

/-- C4 counterexample: the claim states that after pruning, every
directory left empty is removed (only the live root being exempt) — but
`strip_tree` does not descend into dot-prefixed top-level entries, so an
empty top-level directory named `.e` survives pruning intact. -/
theorem prune_keeps_empty_dot_dir :
    strip_tree true (strip_files [(['.', 'e'], Inode.dir [])] []) =
      [(['.', 'e'], Inode.dir [])] := by
  have hsf : strip_files [(['.', 'e'], Inode.dir [])] [] =
      [(['.', 'e'], Inode.dir [])] := by
    simp [strip_files, get_orphans, get_files, getFilesRec, startsWithDot]
  rw [hsf]
  rw [strip_tree_cons_dir_dot true ['.', 'e'] [] [] (by decide), strip_tree_nil]

/-- C4 (amended): pruning (`strip_files` then `strip_tree`) deletes
exactly those regular files under the live directory whose relative path
is absent from the manifest, excluding files named `synclog.txt` (at any
depth) and dot-prefixed top-level entries; afterwards every directory
left empty is removed recursively, except dot-prefixed top-level
directories, which are not descended into or removed; the live root
itself is never removed (the pruning functions return the root's entry
list; only entries of it can disappear). -/
theorem prune_exact (t : Tree) (manifest : List (List Name))
    (hwf : wfEntries t = true) :
    (∀ p, getContent (strip_tree true (strip_files t manifest)) p =
      if p ∈ get_files t ∧ p ∉ manifest then none else getContent t p) ∧
    (∀ p es, getNode (strip_tree true (strip_files t manifest)) p =
        some (Inode.dir es) → es = [] → headDot p = true) := by
  have hwf' : wfEntries (strip_files t manifest) = true :=
    strip_files_wf t manifest hwf
  constructor
  · intro p
    rw [strip_tree_getContent true (strip_files t manifest) hwf' p,
      strip_files_getContent t manifest hwf p]
  · intro p es hnode hes
    subst hes
    exact (strip_tree_no_empty_dir true (strip_files t manifest) p hnode).2

/-- A live tree with a kept file `a`, an orphan `d/b` and the directory
`d` that the orphan's removal leaves empty. -/
def pruneTreeEx : Tree :=
  [(['a'], Inode.file [1]), (['d'], Inode.dir [(['b'], Inode.file [2])])]

/-- Closed instance of `prune_exact`: against the manifest `{a}`, the
orphan `d/b` is deleted, the file `a` keeps its content, and no empty
non-dot directory survives. -/
theorem prune_exact_witness :
    getContent (strip_tree true (strip_files pruneTreeEx [[['a']]])) [['d'], ['b']] =
      none ∧
    getContent (strip_tree true (strip_files pruneTreeEx [[['a']]])) [['a']] =
      some [1] ∧
    getNode (strip_tree true (strip_files pruneTreeEx [[['a']]])) [['d']] ≠
      some (Inode.dir []) := by
  have hwf : wfEntries pruneTreeEx = true := by
    simp [pruneTreeEx, wfEntries]
  have hspec := prune_exact pruneTreeEx [[['a']]] hwf
  have hfiles : get_files pruneTreeEx = [[['a']], [['d'], ['b']]] := by
    simp [pruneTreeEx, get_files, getFilesRec, startsWithDot, LOGFILE]
  refine ⟨?_, ?_, ?_⟩
  · rw [hspec.1 [['d'], ['b']], if_pos]
    rw [hfiles]
    refine ⟨by simp, by simp⟩
  · rw [hspec.1 [['a']], if_neg]
    · simp [pruneTreeEx, getContent, getNode, lookupEntry]
    · rw [hfiles]
      simp
  · intro hnode
    have := hspec.2 [['d']] [] hnode rfl
    simp [headDot, startsWithDot] at this

/-! ### Pointwise behaviour of the merge under permission failures -/

theorem getNode_cons_ne (n : Name) (i : Inode) (rest : Tree) (m : Name)
    (p : List Name) (h : n ≠ m) :
    getNode ((n, i) :: rest) (m :: p) = getNode rest (m :: p) := by
  rw [getNode_cons, getNode_cons, lookupEntry_cons, if_neg h]

theorem getNode_cons_head (n : Name) (i : Inode) (rest : Tree) (p : List Name) :
    getNode ((n, i) :: rest) (n :: p) = nodeVia (some i) p := by
  rw [getNode_cons, lookupEntry_cons, if_pos rfl]

theorem getContent_eq_of_getNode (t1 t2 : Tree) (p : List Name)
    (h : getNode t1 p = getNode t2 p) : getContent t1 p = getContent t2 p := by
  simp [getContent, h]

theorem getNode_head_not_mem (rest : Tree) (n : Name) (p : List Name)
    (h : n ∉ rest.map Prod.fst) : getNode rest (n :: p) = none := by
  rw [getNode_cons, lookupEntry_none_of_not_mem rest n h]
  cases p <;> rfl

theorem getContent_congr_lookup_all (t1 t2 : Tree) (p : List Name)
    (h : ∀ n, lookupEntry t1 n = lookupEntry t2 n) :
    getContent t1 p = getContent t2 p := by
  cases p with
  | nil => simp
  | cons m p' => exact getContent_congr_lookup t1 t2 m p' (h m)

/-- The induction motive for the pointwise merge characterization: given
a well-formed staged subtree with no staged directory at a
permission-failing destination path, a defined merge places every staged
file — chunk-copied when its destination path is writable, left as the
destination had it when the path is in `perm`. -/
def CopyMotive (perm : List (List Name)) (chunk_size : Nat)
    (pre : List Name) (src : List (Name × Inode)) (dst : Tree) : Prop :=
  wfEntries src = true →
  (∀ q sub, getNode src q = some (Inode.dir sub) → (pre ++ q) ∉ perm) →
  ∀ M, copy_directory perm chunk_size pre src dst = some M →
  ∀ q c, getNode src q = some (Inode.file c) →
    ((pre ++ q) ∈ perm → getContent M q = getContent dst q) ∧
    ((pre ++ q) ∉ perm → getContent M q = some (copy_file chunk_size c))

/-- Restriction of the no-staged-directory-in-`perm` hypothesis to the
tail entries. -/
theorem permHyp_rest (perm : List (List Name)) (pre : List Name) (n : Name)
    (i : Inode) (rest : Tree) (hwfh : n ∉ rest.map Prod.fst)
    (hperm : ∀ q sub, getNode ((n, i) :: rest) q = some (Inode.dir sub) →
      (pre ++ q) ∉ perm) :
    ∀ q sub, getNode rest q = some (Inode.dir sub) → (pre ++ q) ∉ perm := by
  intro q sub hq
  cases q with
  | nil => cases hq
  | cons m p =>
      by_cases hm : m = n
      · subst hm
        rw [getNode_head_not_mem rest m p hwfh] at hq
        cases hq
      · apply hperm (m :: p) sub
        rw [getNode_cons_ne n i rest m p (fun hc => hm hc.symm)]
        exact hq

/-- Path re-association for descending one directory level. -/
theorem pre_append_cons (pre : List Name) (n : Name) (q : List Name) :
    pre ++ (n :: q) = (pre ++ [n]) ++ q := by
  simp

/-- The shared argument for the three defined-sub-merge branches of the
directory case (destination was a removable file, an existing directory,
or absent): `d0` is the directory contents the sub-merge started from. -/
theorem copy_dir_step (perm : List (List Name)) (chunk_size : Nat)
    (pre : List Name) (n : Name) (sub rest : List (Name × Inode)) (dst M sub' d0 : Tree)
    (hsub : copy_directory perm chunk_size (pre ++ [n]) sub d0 = some sub')
    (hM : copy_directory perm chunk_size pre rest (setEntry dst n (.dir sub')) = some M)
    (hwfh : n ∉ rest.map Prod.fst) (hwfsub : wfEntries sub = true)
    (hwfrest : wfEntries rest = true)
    (hperm : ∀ q s, getNode ((n, Inode.dir sub) :: rest) q = some (Inode.dir s) →
      (pre ++ q) ∉ perm)
    (hdst : ∀ q', q' ≠ [] → getContent dst (n :: q') = getContent d0 q')
    (ih1 : CopyMotive perm chunk_size (pre ++ [n]) sub d0)
    (ih2 : CopyMotive perm chunk_size pre rest (setEntry dst n (.dir sub'))) :
    ∀ q c, getNode ((n, Inode.dir sub) :: rest) q = some (Inode.file c) →
      ((pre ++ q) ∈ perm → getContent M q = getContent dst q) ∧
      ((pre ++ q) ∉ perm → getContent M q = some (copy_file chunk_size c)) := by
  have hpermsub : ∀ q s, getNode sub q = some (Inode.dir s) →
      ((pre ++ [n]) ++ q) ∉ perm := by
    intro q s hq
    cases q with
    | nil => cases hq
    | cons a p2 =>
        rw [← pre_append_cons]
        apply hperm (n :: a :: p2) s
        rw [getNode_cons_head]
        exact hq
  have hsubres := ih1 hwfsub hpermsub sub' hsub
  intro q c hq
  cases q with
  | nil => cases hq
  | cons m p =>
      by_cases hm : m = n
      · subst hm
        rw [getNode_cons_head] at hq
        cases p with
        | nil => simp [nodeVia] at hq
        | cons a p2 =>
            simp only [nodeVia] at hq
            have hres := hsubres (a :: p2) c hq
            have hlk : lookupEntry M m = some (Inode.dir sub') := by
              rw [copy_directory_lookup_not_src perm chunk_size pre rest _ M m hwfh hM,
                lookupEntry_setEntry_self]
            have hMc : getContent M (m :: a :: p2) = getContent sub' (a :: p2) := by
              rw [getContent_of_lookup_dir M m sub' (a :: p2) hlk, if_neg (by simp)]
            rw [pre_append_cons]
            constructor
            · intro hin
              rw [hMc, hres.1 hin, ← hdst (a :: p2) (by simp)]
            · intro hnin
              rw [hMc, hres.2 hnin]
      · rw [getNode_cons_ne n _ rest m p (fun hc => hm hc.symm)] at hq
        have hres := ih2 hwfrest
          (permHyp_rest perm pre n (Inode.dir sub) rest hwfh hperm) M hM (m :: p) c hq
        have hdst' : getContent (setEntry dst n (Inode.dir sub')) (m :: p) =
            getContent dst (m :: p) :=
          getContent_congr_lookup _ _ m p
            (lookupEntry_setEntry_ne dst n m _ (fun hc => hm hc.symm))
        exact ⟨fun hin => by rw [hres.1 hin, hdst'], hres.2⟩

/-- While merging, a staged file at relative path `q` ends up at `q` in
the destination — chunk-copied when its destination is writable,
untouched (the caught `PermissionError`) when it is not — provided no
staged *directory* sits at a permission-failing destination path (the
unlink-skip branch), which is the situation of a per-file copy failure. -/
theorem copy_directory_getContent (perm : List (List Name)) (chunk_size : Nat) :
    ∀ (pre : List Name) (src : List (Name × Inode)) (dst : Tree),
      CopyMotive perm chunk_size pre src dst := by
  intro pre src dst
  induction pre, src, dst using copy_directory.induct perm chunk_size with
  | case1 pre dst =>
      intro _ _ M _ q c hq
      cases q with
      | nil => cases hq
      | cons m p => rw [getNode_head_not_mem [] m p (by simp)] at hq; cases hq
  | case2 pre n c0 rest dst hcs =>
      intro _ _ M hM
      unfold copy_directory at hM
      simp only [hcs] at hM
      exact Option.noConfusion hM
  | case3 pre n c0 rest dst hcs ih =>
      intro hwf hperm M hM
      unfold copy_directory at hM
      simp only [hcs] at hM
      rw [wfEntries_cons_iff'] at hwf
      intro q c hq
      cases q with
      | nil => cases hq
      | cons m p =>
          by_cases hm : m = n
          · subst hm
            rw [getNode_cons_head] at hq
            cases p with
            | nil =>
                simp only [nodeVia] at hq
                injection hq with hq
                injection hq with hq
                subst hq
                have hperm_in : (pre ++ [m]) ∈ perm := by
                  by_contra hnin
                  cases hld : lookupEntry dst m with
                  | none => simp [copy_subfile, hld, hnin] at hcs
                  | some i =>
                      cases i with
                      | file cf => simp [copy_subfile, hld, hnin] at hcs
                      | dir d => simp [copy_subfile, hld] at hcs
                have hlk : lookupEntry M m = lookupEntry dst m :=
                  copy_directory_lookup_not_src perm chunk_size pre rest dst M m
                    hwf.1 hM
                constructor
                · intro _
                  exact getContent_congr_lookup M dst m [] hlk
                · intro hnin
                  exact absurd hperm_in hnin
            | cons a p2 => simp [nodeVia] at hq
          · rw [getNode_cons_ne n _ rest m p (fun hc => hm hc.symm)] at hq
            exact ih hwf.2.2
              (permHyp_rest perm pre n (Inode.file c0) rest hwf.1 hperm) M hM (m :: p) c hq
  | case4 pre n c0 rest dst ino hcs ih =>
      intro hwf hperm M hM
      unfold copy_directory at hM
      simp only [hcs] at hM
      rw [wfEntries_cons_iff'] at hwf
      -- copy_subfile produced a written entry: either the destination
      -- path failed with PermissionError and the destination file was
      -- left as it was (`ino` is the old file), or it was writable and
      -- `ino` is the chunk-copied staged file.
      have hdisj : ((pre ++ [n]) ∈ perm ∧ lookupEntry dst n = some ino) ∨
          ((pre ++ [n]) ∉ perm ∧ ino = Inode.file (copy_file chunk_size c0)) := by
        cases hld : lookupEntry dst n with
        | none =>
            by_cases hp : (pre ++ [n]) ∈ perm
            · simp [copy_subfile, hld, hp] at hcs
            · simp [copy_subfile, hld, hp] at hcs
              exact Or.inr ⟨hp, hcs.symm⟩
        | some i =>
            cases i with
            | file cf =>
                by_cases hp : (pre ++ [n]) ∈ perm
                · simp [copy_subfile, hld, hp] at hcs
                  exact Or.inl ⟨hp, congrArg some hcs⟩
                · simp [copy_subfile, hld, hp] at hcs
                  exact Or.inr ⟨hp, hcs.symm⟩
            | dir d => simp [copy_subfile, hld] at hcs
      intro q c hq
      cases q with
      | nil => cases hq
      | cons m p =>
          by_cases hm : m = n
          · subst hm
            rw [getNode_cons_head] at hq
            cases p with
            | nil =>
                simp only [nodeVia] at hq
                injection hq with hq
                injection hq with hq
                subst hq
                have hlk : lookupEntry M m = some ino := by
                  rw [copy_directory_lookup_not_src perm chunk_size pre rest _ M m
                    hwf.1 hM, lookupEntry_setEntry_self]
                constructor
                · intro hin
                  rcases hdisj with ⟨-, hdst⟩ | ⟨hnp, -⟩
                  · exact getContent_congr_lookup M dst m [] (by rw [hlk, hdst])
                  · exact absurd hin hnp
                · intro hnin
                  rcases hdisj with ⟨hp, -⟩ | ⟨-, hino⟩
                  · exact absurd hp hnin
                  · rw [getContent_of_lookup_file M m (copy_file chunk_size c0) []
                      (by rw [hlk, hino])]
                    simp
            | cons a p2 => simp [nodeVia] at hq
          · rw [getNode_cons_ne n _ rest m p (fun hc => hm hc.symm)] at hq
            have hres := ih hwf.2.2
              (permHyp_rest perm pre n (Inode.file c0) rest hwf.1 hperm) M hM (m :: p) c hq
            have hdst : getContent (setEntry dst n ino) (m :: p) = getContent dst (m :: p) :=
              getContent_congr_lookup _ _ m p
                (lookupEntry_setEntry_ne dst n m ino (fun hc => hm hc.symm))
            exact ⟨fun hin => by rw [hres.1 hin, hdst], hres.2⟩
  | case5 pre n sub rest dst c0 hld hp ih =>
      intro hwf hperm M hM
      exact absurd hp (hperm [n] sub (by rw [getNode_cons_head]; rfl))
  | case6 pre n sub rest dst c0 hld hp hsub ih =>
      intro hwf hperm M hM
      unfold copy_directory at hM
      simp only [hld, if_neg hp, hsub] at hM
      exact Option.noConfusion hM
  | case7 pre n sub rest dst c0 hld hp sub' hsub ih1 ih2 =>
      intro hwf hperm M hM
      unfold copy_directory at hM
      simp only [hld, if_neg hp, hsub] at hM
      rw [wfEntries_cons_iff'] at hwf
      exact copy_dir_step perm chunk_size pre n sub rest dst M sub' [] hsub hM hwf.1
        (by simpa [wfInode] using hwf.2.1) hwf.2.2 hperm
        (fun q' hq' => by
          rw [getContent_of_lookup_file dst n c0 q' hld, if_neg hq']
          simp)
        ih1 ih2
  | case8 pre n sub rest dst d hld hsub ih =>
      intro hwf hperm M hM
      unfold copy_directory at hM
      simp only [hld, hsub] at hM
      exact Option.noConfusion hM
  | case9 pre n sub rest dst d hld sub' hsub ih1 ih2 =>
      intro hwf hperm M hM
      unfold copy_directory at hM
      simp only [hld, hsub] at hM
      rw [wfEntries_cons_iff'] at hwf
      exact copy_dir_step perm chunk_size pre n sub rest dst M sub' d hsub hM hwf.1
        (by simpa [wfInode] using hwf.2.1) hwf.2.2 hperm
        (fun q' hq' => by rw [getContent_of_lookup_dir dst n d q' hld, if_neg hq'])
        ih1 ih2
  | case10 pre n sub rest dst hld hsub ih =>
      intro hwf hperm M hM
      unfold copy_directory at hM
      simp only [hld, hsub] at hM
      exact Option.noConfusion hM
  | case11 pre n sub rest dst hld sub' hsub ih1 ih2 =>
      intro hwf hperm M hM
      unfold copy_directory at hM
      simp only [hld, hsub] at hM
      rw [wfEntries_cons_iff'] at hwf
      exact copy_dir_step perm chunk_size pre n sub rest dst M sub' [] hsub hM hwf.1
        (by simpa [wfInode] using hwf.2.1) hwf.2.2 hperm
        (fun q' hq' => by
          rw [getContent_of_lookup_none dst n q' hld]
          simp)
        ih1 ih2

/-! ### C3 — per-file copy failures -/

/-- `json.loads` model for the permission-failure scenarios. -/
def jparseC3 : Bytes → ParsedJson :=
  fun b => if b = [1] then ParsedJson.list [[['a']], [['b']]] else ParsedJson.notJson

/-- Staged tree: the manifest plus the files `a` and `b`. -/
def stagedC3 : Tree :=
  [(MANIFEST, Inode.file [1]), (['a'], Inode.file [7]), (['b'], Inode.file [8])]

/-- Live tree whose file `a` is unwritable in the scenario. -/
def liveC3 : Tree := [(['a'], Inode.file [9])]

/-- C3 counterexample: an update in which the copy of file `a` fails with
`PermissionError` (its destination path is in the failing set) still
returns `True` — not `False` as the claim states — because
`copy_subfile` swallows the `PermissionError` and `update` has no record
of it.  File `a` keeps its old contents `[9]`, file `b` is merged. -/
theorem update_perm_returns_true :
    update jparseC3 [[['a']]] 4 (ExtractResult.ok stagedC3) liveC3 =
      some (true, [(['a'], Inode.file [9]), (['b'], Inode.file [8])]) := by
  simp [update, load_manifest, jparseC3, stagedC3, liveC3, lookupEntry, MANIFEST,
    removeEntry, copy_directory, copy_subfile, copy_file, readChunks, setEntry,
    strip_files, get_orphans, get_files, getFilesRec, strip_tree, startsWithDot,
    LOGFILE]

theorem getNode_no_dir_of_all_files (src : List (Name × Inode))
    (hall : ∀ e ∈ src, ∃ cc, e.2 = Inode.file cc) :
    ∀ q sub, getNode src q ≠ some (Inode.dir sub) := by
  intro q sub hq
  cases q with
  | nil => cases hq
  | cons m p =>
      rw [getNode_cons] at hq
      cases hl : lookupEntry src m with
      | none => rw [hl] at hq; cases p <;> simp [nodeVia] at hq
      | some i =>
          rw [hl] at hq
          have hmem : (m, i) ∈ src := by
            clear hq
            induction src with
            | nil => cases hl
            | cons e rest ih =>
                obtain ⟨k, j⟩ := e
                rw [lookupEntry_cons] at hl
                by_cases hk : k = m
                · rw [if_pos hk] at hl
                  injection hl with hl
                  subst hk
                  subst hl
                  simp
                · rw [if_neg hk] at hl
                  exact List.mem_cons.mpr (Or.inr (ih (fun e he =>
                    hall e (List.mem_cons.mpr (Or.inr he))) hl))
          rcases hall (m, i) hmem with ⟨cc, hcc⟩
          simp only at hcc
          subst hcc
          cases p <;> simp [nodeVia] at hq

/-- C3 (amended): for every update in which at least one individual file
copy fails with `PermissionError` (and no staged *directory* sits at a
failing destination path, i.e. the failures are file-copy failures), the
failing file is logged and skipped — its live content is exactly what it
was — while the remaining files are still merged with their staged,
chunk-copied contents; and the overall update operation nevertheless
reports *success* (returns `True`), so the caller does record a success
timestamp despite the partial failure. -/
theorem update_perm_file_skip (jparse : Bytes → ParsedJson)
    (perm : List (List Name)) (chunk_size : Nat) (staged live : Tree)
    (man : List (List Name)) (staged' M : Tree)
    (hload : load_manifest jparse staged = LoadResult.ok man staged')
    (hwf : wfEntries staged' = true)
    (hperm : ∀ q sub, getNode staged' q = some (Inode.dir sub) → q ∉ perm)
    (hmerge : copy_directory perm chunk_size [] staged' live = some M) :
    update jparse perm chunk_size (ExtractResult.ok staged) live =
      some (true, strip_tree true (strip_files M man)) ∧
    ∀ q c, getNode staged' q = some (Inode.file c) →
      (q ∈ perm → getContent M q = getContent live q) ∧
      (q ∉ perm → getContent M q = some (copy_file chunk_size c)) := by
  constructor
  · simp [update, hload, hmerge]
  · intro q c hq
    have hperm' : ∀ q' sub, getNode staged' q' = some (Inode.dir sub) →
        (([] : List Name) ++ q') ∉ perm := by
      intro q' sub hq'
      simpa using hperm q' sub hq'
    have h := copy_directory_getContent perm chunk_size [] staged' live hwf hperm'
      M hmerge q c hq
    simpa using h

/-- Closed instance of `update_perm_file_skip` on the counterexample
scenario: `a`'s copy fails and its live bytes `[9]` survive, `b` is
merged with its staged bytes, and `update` reports success. -/
theorem update_perm_file_skip_witness :
    update jparseC3 [[['a']]] 4 (ExtractResult.ok stagedC3) liveC3 =
      some (true, strip_tree true (strip_files
        [(['a'], Inode.file [9]), (['b'], Inode.file [8])] [[['a']], [['b']]])) ∧
    getContent [(['a'], Inode.file [9]), (['b'], Inode.file [8])] [['a']] =
      getContent liveC3 [['a']] ∧
    getContent [(['a'], Inode.file [9]), (['b'], Inode.file [8])] [['b']] =
      some (copy_file 4 [8]) := by
  have hload : load_manifest jparseC3 stagedC3 =
      LoadResult.ok [[['a']], [['b']]]
        [(['a'], Inode.file [7]), (['b'], Inode.file [8])] := by
    simp [load_manifest, jparseC3, stagedC3, lookupEntry, MANIFEST, removeEntry]
  have hwf : wfEntries [(['a'], Inode.file [7]), (['b'], Inode.file [8])] = true := by
    simp [wfEntries]
  have hperm : ∀ q sub,
      getNode [(['a'], Inode.file [7]), (['b'], Inode.file [8])] q =
        some (Inode.dir sub) → q ∉ ([[['a']]] : List (List Name)) := by
    intro q sub hq
    exact absurd hq (getNode_no_dir_of_all_files _ (by
      intro e he
      rcases List.mem_cons.mp he with he | he
      · exact ⟨[7], by rw [he]⟩
      · rcases List.mem_cons.mp he with he | he
        · exact ⟨[8], by rw [he]⟩
        · cases he) q sub)
  have hmerge : copy_directory [[['a']]] 4 []
      [(['a'], Inode.file [7]), (['b'], Inode.file [8])] liveC3 =
      some [(['a'], Inode.file [9]), (['b'], Inode.file [8])] := by
    simp [copy_directory, copy_subfile, copy_file, readChunks, liveC3,
      lookupEntry, setEntry]
  have h := update_perm_file_skip jparseC3 [[['a']]] 4 stagedC3 liveC3
    [[['a']], [['b']]] [(['a'], Inode.file [7]), (['b'], Inode.file [8])]
    [(['a'], Inode.file [9]), (['b'], Inode.file [8])] hload hwf hperm hmerge
  refine ⟨h.1, ?_, ?_⟩
  · exact (h.2 [['a']] [7] (by simp [getNode, lookupEntry])).1 (by simp)
  · exact (h.2 [['b']] [8] (by simp [getNode, lookupEntry])).2 (by simp)

/-! ### A recursive form of the pruning phase

`strip_files` walks the whole tree and unlinks orphans one by one;
`strip_tree` then removes the directories left empty.  For the
idempotence argument we fuse the two into one structural recursion
(`pruneRec`) and prove it equal to the composite. -/

/-- `strip_files` restricted to the subtree at `pre`, as a structural
recursion: a file survives iff it is skipped by the walk (dot entry of
the base directory, or named `synclog.txt`) or listed in the manifest. -/
def sfRec (man : List (List Name)) (b : Bool) (pre : List Name) : Tree → Tree
  | [] => []
  | (n, .file c) :: rest =>
      (if b && startsWithDot n then [(n, Inode.file c)]
       else if n = LOGFILE then [(n, Inode.file c)]
       else if (pre ++ [n]) ∈ man then [(n, Inode.file c)] else [])
      ++ sfRec man b pre rest
  | (n, .dir sub) :: rest =>
      (if b && startsWithDot n then [(n, Inode.dir sub)]
       else [(n, Inode.dir (sfRec man false (pre ++ [n]) sub))])
      ++ sfRec man b pre rest

/-- The fused prune: `sfRec` followed by the empty-directory removal of
`strip_tree`, in one pass. -/
def pruneRec (man : List (List Name)) (b : Bool) (pre : List Name) : Tree → Tree
  | [] => []
  | (n, .file c) :: rest =>
      (if b && startsWithDot n then [(n, Inode.file c)]
       else if n = LOGFILE then [(n, Inode.file c)]
       else if (pre ++ [n]) ∈ man then [(n, Inode.file c)] else [])
      ++ pruneRec man b pre rest
  | (n, .dir sub) :: rest =>
      (if b && startsWithDot n then [(n, Inode.dir sub)]
       else
         let sub' := pruneRec man false (pre ++ [n]) sub
         if sub'.isEmpty then [] else [(n, Inode.dir sub')])
      ++ pruneRec man b pre rest

/-- The orphans of the subtree at `pre` (paths relative to that subtree,
membership in the manifest tested with the full path). -/
def orphRel (man : List (List Name)) (b : Bool) (pre : List Name) (t : Tree) :
    List (List Name) :=
  ((getFilesRec b t).map Prod.fst).filter (fun p => decide ((pre ++ p) ∉ man))

theorem orphRel_top (man : List (List Name)) (t : Tree) :
    orphRel man true [] t = get_orphans t man := by
  rw [orphRel, get_orphans, get_files]
  apply List.filter_congr
  intro p _
  simp

/-- Removing a file whose path starts below a different name leaves a
head entry untouched. -/
theorem removeFileAt_cons_ne (n : Name) (i : Inode) (rest : Tree) (m : Name)
    (p : List Name) (h : m ≠ n) :
    removeFileAt ((n, i) :: rest) (m :: p) = (n, i) :: removeFileAt rest (m :: p) := by
  cases p with
  | nil =>
      have hl : lookupEntry ((n, i) :: rest) m = lookupEntry rest m := by
        rw [lookupEntry_cons, if_neg (fun hc => h hc.symm)]
      cases hlr : lookupEntry rest m with
      | none =>
          have e1 : removeFileAt ((n, i) :: rest) [m] = (n, i) :: rest := by
            simp [removeFileAt, hl, hlr]
          have e2 : removeFileAt rest [m] = rest := by
            simp [removeFileAt, hlr]
          rw [e1, e2]
      | some j =>
          cases j with
          | file c =>
              have e1 : removeFileAt ((n, i) :: rest) [m] =
                  removeEntry ((n, i) :: rest) m := by
                simp [removeFileAt, hl, hlr]
              have e2 : removeFileAt rest [m] = removeEntry rest m := by
                simp [removeFileAt, hlr]
              rw [e1, e2, removeEntry, if_neg (fun hc => h hc.symm)]
          | dir d =>
              have e1 : removeFileAt ((n, i) :: rest) [m] = (n, i) :: rest := by
                simp [removeFileAt, hl, hlr]
              have e2 : removeFileAt rest [m] = rest := by
                simp [removeFileAt, hlr]
              rw [e1, e2]
  | cons a q =>
      have hl : lookupEntry ((n, i) :: rest) m = lookupEntry rest m := by
        rw [lookupEntry_cons, if_neg (fun hc => h hc.symm)]
      cases hlr : lookupEntry rest m with
      | none =>
          have e1 : removeFileAt ((n, i) :: rest) (m :: a :: q) = (n, i) :: rest := by
            simp [removeFileAt, hl, hlr]
          have e2 : removeFileAt rest (m :: a :: q) = rest := by
            simp [removeFileAt, hlr]
          rw [e1, e2]
      | some j =>
          cases j with
          | file c =>
              have e1 : removeFileAt ((n, i) :: rest) (m :: a :: q) = (n, i) :: rest := by
                simp [removeFileAt, hl, hlr]
              have e2 : removeFileAt rest (m :: a :: q) = rest := by
                simp [removeFileAt, hlr]
              rw [e1, e2]
          | dir d =>
              have e1 : removeFileAt ((n, i) :: rest) (m :: a :: q) =
                  setEntry ((n, i) :: rest) m (.dir (removeFileAt d (a :: q))) := by
                simp [removeFileAt, hl, hlr]
              have e2 : removeFileAt rest (m :: a :: q) =
                  setEntry rest m (.dir (removeFileAt d (a :: q))) := by
                simp [removeFileAt, hlr]
              rw [e1, e2, setEntry_cons_ne n m i _ rest (fun hc => h hc.symm)]

/-- Folding removals whose paths all start below other names leaves a
head entry untouched. -/
theorem foldl_removeFileAt_cons_frame (n : Name) (i : Inode) :
    ∀ (L : List (List Name)) (rest : Tree),
      (∀ p ∈ L, ∃ m q, p = m :: q ∧ m ≠ n) →
      L.foldl removeFileAt ((n, i) :: rest) = (n, i) :: L.foldl removeFileAt rest := by
  intro L
  induction L with
  | nil => intro rest _; rfl
  | cons p L' ih =>
      intro rest hL
      rcases hL p (by simp) with ⟨m, q, hp, hm⟩
      subst hp
      rw [List.foldl_cons, List.foldl_cons,
        removeFileAt_cons_ne n i rest m q hm]
      exact ih _ (fun p hp => hL p (by simp [hp]))

/-- Removing a file below the head directory rewrites only that entry. -/
theorem removeFileAt_cons_head_dir (n : Name) (sub : List (Name × Inode))
    (rest : Tree) (a : Name) (q : List Name) :
    removeFileAt ((n, Inode.dir sub) :: rest) (n :: a :: q) =
      (n, Inode.dir (removeFileAt sub (a :: q))) :: rest := by
  have hl : lookupEntry ((n, Inode.dir sub) :: rest) n = some (Inode.dir sub) := by
    rw [lookupEntry_cons, if_pos rfl]
  have e : removeFileAt ((n, Inode.dir sub) :: rest) (n :: a :: q) =
      setEntry ((n, Inode.dir sub) :: rest) n (.dir (removeFileAt sub (a :: q))) := by
    simp [removeFileAt, hl]
  rw [e, setEntry_cons_self]

/-- Folding removals that all descend into the head directory folds them
inside that directory. -/
theorem foldl_removeFileAt_descend (n : Name) :
    ∀ (L : List (List Name)) (sub : List (Name × Inode)) (rest : Tree),
      (∀ p ∈ L, ∃ a q, p = a :: q) →
      (L.map (fun p => n :: p)).foldl removeFileAt ((n, Inode.dir sub) :: rest) =
        (n, Inode.dir (L.foldl removeFileAt sub)) :: rest := by
  intro L
  induction L with
  | nil => intro sub rest _; rfl
  | cons p L' ih =>
      intro sub rest hL
      rcases hL p (by simp) with ⟨a, q, hp⟩
      subst hp
      rw [List.map_cons, List.foldl_cons, List.foldl_cons,
        removeFileAt_cons_head_dir n sub rest a q]
      exact ih _ rest (fun p hp => hL p (by simp [hp]))

/-- Every orphan path is non-empty and starts at an entry of the tree. -/
theorem orphRel_shape (man : List (List Name)) (b : Bool) (pre : List Name) (t : Tree) :
    ∀ p ∈ orphRel man b pre t, ∃ hd tl, p = hd :: tl ∧ hd ∈ t.map Prod.fst := by
  intro p hp
  rw [orphRel] at hp
  have hp' := List.mem_of_mem_filter hp
  rcases List.mem_map.mp hp' with ⟨pc, hpc, hfst⟩
  rcases getFilesRec_head_mem b t pc.1 pc.2 (by simpa using hpc) with ⟨hd, tl, hcons, hmem⟩
  exact ⟨hd, tl, hfst ▸ hcons, hmem⟩

theorem orphRel_cons_file (man : List (List Name)) (b : Bool) (pre : List Name)
    (n : Name) (c : Bytes) (rest : Tree) :
    orphRel man b pre ((n, Inode.file c) :: rest) =
      (if b && startsWithDot n then []
       else if n = LOGFILE then []
       else if (pre ++ [n]) ∈ man then [] else [[n]])
      ++ orphRel man b pre rest := by
  simp only [orphRel, getFilesRec, List.map_append, List.filter_append]
  by_cases hd : (b && startsWithDot n) = true
  · simp [hd]
  · rw [if_neg hd, if_neg hd]
    by_cases hlf : n = LOGFILE
    · simp [hlf]
    · by_cases hm : (pre ++ [n]) ∈ man
      · simp [hlf, hm]
      · simp [hlf, hm]

theorem filter_map_cons_path (man : List (List Name)) (pre : List Name) (n : Name) :
    ∀ (xs : List (List Name × Bytes)),
      ((xs.map (fun pc => (n :: pc.1, pc.2))).map Prod.fst).filter
          (fun p => decide ((pre ++ p) ∉ man)) =
      ((xs.map Prod.fst).filter
          (fun p => decide (((pre ++ [n]) ++ p) ∉ man))).map (fun p => n :: p) := by
  intro xs
  induction xs with
  | nil => rfl
  | cons pc xs ih =>
      by_cases hm : (pre ++ n :: pc.1) ∈ man
      · simp only [List.map_cons, List.filter_cons]
        simp [hm]
        simpa using ih
      · simp only [List.map_cons, List.filter_cons]
        simp [hm]
        simpa using ih

theorem orphRel_cons_dir (man : List (List Name)) (b : Bool) (pre : List Name)
    (n : Name) (sub : List (Name × Inode)) (rest : Tree) :
    orphRel man b pre ((n, Inode.dir sub) :: rest) =
      (if b && startsWithDot n then []
       else (orphRel man false (pre ++ [n]) sub).map (fun p => n :: p))
      ++ orphRel man b pre rest := by
  simp only [orphRel, getFilesRec, List.map_append, List.filter_append]
  by_cases hd : (b && startsWithDot n) = true
  · simp [hd]
  · rw [if_neg hd, if_neg hd]
    congr 1
    exact filter_map_cons_path man pre n (getFilesRec false sub)

/-- Bridge A: unlinking the orphans of a (well-formed) subtree one by one,
as `strip_files` does, equals the structural one-pass `sfRec`. -/
theorem foldl_removeFileAt_eq_sfRec (man : List (List Name)) :
    ∀ (b : Bool) (pre : List Name) (t : Tree), wfEntries t = true →
      (orphRel man b pre t).foldl removeFileAt t = sfRec man b pre t := by
  intro b pre t
  induction b, pre, t using sfRec.induct man with
  | case1 b pre =>
      intro _
      simp [orphRel, getFilesRec, sfRec]
  | case2 b pre n c rest ih =>
      intro hwf
      rw [wfEntries_cons_iff] at hwf
      obtain ⟨hnm, -, hwfr⟩ := hwf
      have hframe : ∀ p ∈ orphRel man b pre rest, ∃ m q, p = m :: q ∧ m ≠ n := by
        intro p hp
        rcases orphRel_shape man b pre rest p hp with ⟨hd, tl, hcons, hmem⟩
        exact ⟨hd, tl, hcons, fun he => hnm (he ▸ hmem)⟩
      rw [orphRel_cons_file, List.foldl_append]
      by_cases hd : (b && startsWithDot n) = true
      · rw [if_pos hd]
        rw [List.foldl_nil, foldl_removeFileAt_cons_frame n (Inode.file c) _ rest hframe,
          ih hwfr]
        simp [sfRec, hd]
      · rw [if_neg hd]
        by_cases hlf : n = LOGFILE
        · rw [if_pos hlf]
          rw [List.foldl_nil, foldl_removeFileAt_cons_frame n (Inode.file c) _ rest hframe,
            ih hwfr]
          simp [sfRec, hd, hlf]
        · rw [if_neg hlf]
          by_cases hm : (pre ++ [n]) ∈ man
          · rw [if_pos hm]
            rw [List.foldl_nil, foldl_removeFileAt_cons_frame n (Inode.file c) _ rest hframe,
              ih hwfr]
            simp [sfRec, hd, hlf, hm]
          · rw [if_neg hm]
            have hstep : removeFileAt ((n, Inode.file c) :: rest) [n] = rest := by
              have hl : lookupEntry ((n, Inode.file c) :: rest) n = some (Inode.file c) := by
                rw [lookupEntry_cons, if_pos rfl]
              have : removeFileAt ((n, Inode.file c) :: rest) [n] =
                  removeEntry ((n, Inode.file c) :: rest) n := by
                simp [removeFileAt, hl]
              rw [this, removeEntry, if_pos rfl]
            rw [List.foldl_cons, List.foldl_nil, hstep, ih hwfr]
            simp [sfRec, hd, hlf, hm]
  | case3 b pre n sub rest ihsub ihrest =>
      intro hwf
      rw [wfEntries_cons_iff] at hwf
      obtain ⟨hnm, hwfs, hwfr⟩ := hwf
      have hframe : ∀ p ∈ orphRel man b pre rest, ∃ m q, p = m :: q ∧ m ≠ n := by
        intro p hp
        rcases orphRel_shape man b pre rest p hp with ⟨hd, tl, hcons, hmem⟩
        exact ⟨hd, tl, hcons, fun he => hnm (he ▸ hmem)⟩
      rw [orphRel_cons_dir, List.foldl_append]
      by_cases hd : (b && startsWithDot n) = true
      · rw [if_pos hd]
        rw [List.foldl_nil, foldl_removeFileAt_cons_frame n (Inode.dir sub) _ rest hframe,
          ihrest hwfr]
        simp [sfRec, hd]
      · rw [if_neg hd]
        have hne : ∀ p ∈ orphRel man false (pre ++ [n]) sub, ∃ a q, p = a :: q := by
          intro p hp
          rcases orphRel_shape man false (pre ++ [n]) sub p hp with ⟨a, q, hcons, -⟩
          exact ⟨a, q, hcons⟩
        rw [foldl_removeFileAt_descend n _ sub rest hne, ihsub hwfs,
          foldl_removeFileAt_cons_frame n _ _ rest hframe, ihrest hwfr]
        simp [sfRec, hd]

/-- Bridge B: removing the empty directories of an `sfRec` result is the
fused prune. -/
theorem strip_tree_sfRec_eq_pruneRec (man : List (List Name)) :
    ∀ (b : Bool) (pre : List Name) (t : Tree),
      strip_tree b (sfRec man b pre t) = pruneRec man b pre t := by
  intro b pre t
  induction b, pre, t using sfRec.induct man with
  | case1 b pre => simp [sfRec, strip_tree, pruneRec]
  | case2 b pre n c rest ih =>
      by_cases hd : (b && startsWithDot n) = true
      · simp [sfRec, strip_tree, pruneRec, hd, ih]
      · by_cases hlf : n = LOGFILE
        · simp [sfRec, strip_tree, pruneRec, hd, hlf, ih]
        · by_cases hm : (pre ++ [n]) ∈ man
          · simp [sfRec, strip_tree, pruneRec, hd, hlf, hm, ih]
          · simp [sfRec, strip_tree, pruneRec, hd, hlf, hm, ih]
  | case3 b pre n sub rest ihsub ihrest =>
      by_cases hd : (b && startsWithDot n) = true
      · simp [sfRec, strip_tree, pruneRec, hd, ihrest]
      · simp [sfRec, strip_tree, pruneRec, hd, ihsub, ihrest]
        rw [ihsub]

/-- The composite pruning phase of `update` — `strip_files` then
`strip_tree` — is the fused structural prune `pruneRec`. -/
theorem strip_strip_eq_pruneRec (man : List (List Name)) (t : Tree)
    (hwf : wfEntries t = true) :
    strip_tree true (strip_files t man) = pruneRec man true [] t := by
  rw [strip_files, ← orphRel_top, foldl_removeFileAt_eq_sfRec man true [] t hwf,
    strip_tree_sfRec_eq_pruneRec]

/-! ### The merge with no permission failures

For the idempotence claim the environment raises no `PermissionError`
(`perm = []`).  In that case `copy_directory` never consults its `pre`
argument, and collapses to the structural merge `mergeT` below, which is
easier to induct over. -/

/-- The directory contents `copy_subdir` recurses into: the destination
entry if it is a directory, else the fresh empty directory `mkdir`
creates (after the unlink of a file in the way). -/
def subOf (dst : Tree) (n : Name) : Tree :=
  match lookupEntry dst n with
  | some (.dir d) => d
  | _ => []

/-- `copy_directory` with `perm = []`, as a structural recursion. -/
def mergeT (cs : Nat) : List (Name × Inode) → Tree → Option Tree
  | [], dst => some dst
  | (n, .file c) :: rest, dst =>
      match lookupEntry dst n with
      | some (.dir _) => none
      | _ => mergeT cs rest (setEntry dst n (.file (copy_file cs c)))
  | (n, .dir sub) :: rest, dst =>
      match mergeT cs sub (subOf dst n) with
      | none => none
      | some sub' => mergeT cs rest (setEntry dst n (.dir sub'))

theorem mergeT_nil (cs : Nat) (dst : Tree) : mergeT cs [] dst = some dst := by
  simp [mergeT]

theorem mergeT_cons_file_none (cs : Nat) (n : Name) (c : Bytes) (rest : List (Name × Inode))
    (dst : Tree) (hld : lookupEntry dst n = none) :
    mergeT cs ((n, .file c) :: rest) dst =
      mergeT cs rest (setEntry dst n (.file (copy_file cs c))) := by
  conv_lhs => rw [mergeT.eq_def]
  simp [hld]

theorem mergeT_cons_file_file (cs : Nat) (n : Name) (c c' : Bytes)
    (rest : List (Name × Inode)) (dst : Tree)
    (hld : lookupEntry dst n = some (.file c')) :
    mergeT cs ((n, .file c) :: rest) dst =
      mergeT cs rest (setEntry dst n (.file (copy_file cs c))) := by
  conv_lhs => rw [mergeT.eq_def]
  simp [hld]

theorem mergeT_cons_file_dir (cs : Nat) (n : Name) (c : Bytes) (d : Tree)
    (rest : List (Name × Inode)) (dst : Tree)
    (hld : lookupEntry dst n = some (.dir d)) :
    mergeT cs ((n, .file c) :: rest) dst = none := by
  conv_lhs => rw [mergeT.eq_def]
  simp [hld]

theorem mergeT_cons_dir (cs : Nat) (n : Name) (sub rest : List (Name × Inode))
    (dst : Tree) :
    mergeT cs ((n, .dir sub) :: rest) dst =
      match mergeT cs sub (subOf dst n) with
      | none => none
      | some sub' => mergeT cs rest (setEntry dst n (.dir sub')) := by
  conv_lhs => rw [mergeT.eq_def]

/-- With no permission failures the real merge is `mergeT` (and in
particular does not depend on the destination prefix). -/
theorem copy_directory_nil_eq_mergeT (cs : Nat) :
    ∀ (pre : List Name) (src : List (Name × Inode)) (dst : Tree),
      copy_directory [] cs pre src dst = mergeT cs src dst := by
  intro pre src dst
  induction pre, src, dst using copy_directory.induct [] cs with
  | case1 pre dst => simp [copy_directory, mergeT]
  | case2 pre n c0 rest dst hcs =>
      rcases hld : lookupEntry dst n with - | ino
      · simp [copy_subfile, hld] at hcs
      · cases ino with
        | file c' => simp [copy_subfile, hld] at hcs
        | dir d =>
            unfold copy_directory
            simp only [hcs]
            rw [mergeT_cons_file_dir cs n c0 d rest dst hld]
  | case3 pre n c0 rest dst hcs ih =>
      exfalso
      rcases hld : lookupEntry dst n with - | ino
      · simp [copy_subfile, hld] at hcs
      · cases ino with
        | file c' => simp [copy_subfile, hld] at hcs
        | dir d => simp [copy_subfile, hld] at hcs
  | case4 pre n c0 rest dst ino hcs ih =>
      unfold copy_directory
      simp only [hcs]
      rcases hld : lookupEntry dst n with - | ino'
      · simp [copy_subfile, hld] at hcs
        rw [mergeT_cons_file_none cs n c0 rest dst hld, ← hcs]
        rw [← hcs] at ih
        exact ih
      · cases ino' with
        | file c' =>
            simp [copy_subfile, hld] at hcs
            rw [mergeT_cons_file_file cs n c0 c' rest dst hld, ← hcs]
            rw [← hcs] at ih
            exact ih
        | dir d => simp [copy_subfile, hld] at hcs
  | case5 pre n sub rest dst c0 hld hp ih => exact absurd hp (by simp)
  | case6 pre n sub rest dst c0 hld hp hsub ih =>
      unfold copy_directory
      simp only [hld, if_neg hp, hsub]
      rw [mergeT_cons_dir]
      simp only [subOf, hld]
      rw [← ih, hsub]
  | case7 pre n sub rest dst c0 hld hp sub' hsub ih1 ih2 =>
      unfold copy_directory
      simp only [hld, if_neg hp, hsub]
      rw [mergeT_cons_dir]
      simp only [subOf, hld]
      rw [← ih1, hsub, ih2]
  | case8 pre n sub rest dst d hld hsub ih =>
      unfold copy_directory
      simp only [hld, hsub]
      rw [mergeT_cons_dir]
      simp only [subOf, hld]
      rw [← ih, hsub]
  | case9 pre n sub rest dst d hld sub' hsub ih1 ih2 =>
      unfold copy_directory
      simp only [hld, hsub]
      rw [mergeT_cons_dir]
      simp only [subOf, hld]
      rw [← ih1, hsub, ih2]
  | case10 pre n sub rest dst hld hsub ih =>
      unfold copy_directory
      simp only [hld, hsub]
      rw [mergeT_cons_dir]
      simp only [subOf, hld]
      rw [← ih, hsub]
  | case11 pre n sub rest dst hld sub' hsub ih1 ih2 =>
      unfold copy_directory
      simp only [hld, hsub]
      rw [mergeT_cons_dir]
      simp only [subOf, hld]
      rw [← ih1, hsub, ih2]

theorem lookupEntry_mem (t : Tree) (n : Name) (i : Inode)
    (h : lookupEntry t n = some i) : (n, i) ∈ t := by
  induction t with
  | nil => cases h
  | cons e rest ih =>
      obtain ⟨m, j⟩ := e
      rw [lookupEntry_cons] at h
      by_cases hm : m = n
      · rw [if_pos hm] at h
        injection h with h
        subst hm; subst h
        exact List.mem_cons_self _ _
      · rw [if_neg hm] at h
        exact List.mem_cons.mpr (Or.inr (ih h))

theorem subOf_wf (dst : Tree) (n : Name) (h : wfEntries dst = true) :
    wfEntries (subOf dst n) = true := by
  rcases hld : lookupEntry dst n with - | i
  · simp [subOf, hld, wfEntries]
  · cases i with
    | file c => simp [subOf, hld, wfEntries]
    | dir d =>
        have := wfInode_of_lookup dst n (.dir d) h hld
        simpa [subOf, hld, wfInode] using this

theorem subOf_setEntry_ne (dst : Tree) (m n : Name) (i : Inode) (h : m ≠ n) :
    subOf (setEntry dst m i) n = subOf dst n := by
  simp only [subOf, lookupEntry_setEntry_ne dst m n i h]

theorem sizeOf_dir_mem_lt (src : List (Name × Inode)) (n : Name)
    (sub : List (Name × Inode)) (h : (n, Inode.dir sub) ∈ src) :
    sizeOf sub < sizeOf src := by
  have h1 := List.sizeOf_lt_of_mem h
  simp only [Prod.mk.sizeOf_spec, Inode.dir.sizeOf_spec] at h1
  omega

/-- Pointwise characterization of a successful merge: names absent from
the source keep their destination entry, source files land as chunk
copies, source directories land as recursively merged directories. -/
theorem mergeT_lookup (cs : Nat) :
    ∀ (src : List (Name × Inode)) (dst : Tree),
      wfEntries src = true →
      ∀ M, mergeT cs src dst = some M →
      ∀ n,
        (lookupEntry src n = none → lookupEntry M n = lookupEntry dst n) ∧
        (∀ c, lookupEntry src n = some (.file c) →
           lookupEntry M n = some (.file (copy_file cs c))) ∧
        (∀ sub, lookupEntry src n = some (.dir sub) →
           ∃ d', mergeT cs sub (subOf dst n) = some d' ∧
             lookupEntry M n = some (.dir d')) := by
  intro src dst
  induction src, dst using mergeT.induct cs with
  | case1 dst =>
      intro _ M hM n
      rw [mergeT_nil] at hM
      injection hM with hM
      subst hM
      refine ⟨fun _ => rfl, ?_, ?_⟩
      · intro c hc; simp [lookupEntry] at hc
      · intro sub hsub; simp [lookupEntry] at hsub
  | case2 n c rest dst d hld =>
      intro _ M hM
      rw [mergeT_cons_file_dir cs n c d rest dst hld] at hM
      exact Option.noConfusion hM
  | case3 n c rest dst hnd ih =>
      intro hwf M hM n'
      rw [wfEntries_cons_iff'] at hwf
      obtain ⟨hnm, -, hwfr⟩ := hwf
      have hM' : mergeT cs rest (setEntry dst n (.file (copy_file cs c))) = some M := by
        rcases hld : lookupEntry dst n with - | i
        · rwa [mergeT_cons_file_none cs n c rest dst hld] at hM
        · cases i with
          | file c0 => rwa [mergeT_cons_file_file cs n c c0 rest dst hld] at hM
          | dir d => exact absurd hld (fun h => hnd d h)
      have IH := ih hwfr M hM'
      by_cases hnn : n' = n
      · subst hnn
        refine ⟨?_, ?_, ?_⟩
        · intro h0
          rw [lookupEntry_cons, if_pos rfl] at h0
          cases h0
        · intro c2 hc2
          rw [lookupEntry_cons, if_pos rfl] at hc2
          injection hc2 with hc2
          injection hc2 with hc2
          subst hc2
          have h2 := (IH n').1 (lookupEntry_none_of_not_mem rest n' hnm)
          rw [h2, lookupEntry_setEntry_self]
        · intro sub hsub
          rw [lookupEntry_cons, if_pos rfl] at hsub
          injection hsub with h
          exact Inode.noConfusion h
      · have hl : lookupEntry ((n, Inode.file c) :: rest) n' = lookupEntry rest n' := by
          rw [lookupEntry_cons, if_neg (fun h => hnn h.symm)]
        have IHn := IH n'
        refine ⟨?_, ?_, ?_⟩
        · intro h0
          rw [hl] at h0
          rw [IHn.1 h0, lookupEntry_setEntry_ne dst n n' _ (fun h => hnn h.symm)]
        · intro c2 hc2
          rw [hl] at hc2
          exact IHn.2.1 c2 hc2
        · intro sub hsub
          rw [hl] at hsub
          rcases IHn.2.2 sub hsub with ⟨d', hd1, hd2⟩
          exact ⟨d', by
            rwa [subOf_setEntry_ne dst n n' _ (fun h => hnn h.symm)] at hd1, hd2⟩
  | case4 n sub rest dst hsub ihsub =>
      intro _ M hM
      rw [mergeT_cons_dir, hsub] at hM
      exact Option.noConfusion hM
  | case5 n sub rest dst sub' hsub ihsub ihrest =>
      intro hwf M hM n'
      rw [wfEntries_cons_iff'] at hwf
      obtain ⟨hnm, hwfs, hwfr⟩ := hwf
      have hM' : mergeT cs rest (setEntry dst n (.dir sub')) = some M := by
        rw [mergeT_cons_dir, hsub] at hM
        exact hM
      have IH := ihrest hwfr M hM'
      by_cases hnn : n' = n
      · subst hnn
        refine ⟨?_, ?_, ?_⟩
        · intro h0
          rw [lookupEntry_cons, if_pos rfl] at h0
          cases h0
        · intro c2 hc2
          rw [lookupEntry_cons, if_pos rfl] at hc2
          injection hc2 with h
          exact Inode.noConfusion h
        · intro sub2 hsub2
          rw [lookupEntry_cons, if_pos rfl] at hsub2
          injection hsub2 with h
          injection h with h
          subst h
          refine ⟨sub', hsub, ?_⟩
          have h2 := (IH n').1 (lookupEntry_none_of_not_mem rest n' hnm)
          rw [h2, lookupEntry_setEntry_self]
      · have hl : lookupEntry ((n, Inode.dir sub) :: rest) n' = lookupEntry rest n' := by
          rw [lookupEntry_cons, if_neg (fun h => hnn h.symm)]
        have IHn := IH n'
        refine ⟨?_, ?_, ?_⟩
        · intro h0
          rw [hl] at h0
          rw [IHn.1 h0, lookupEntry_setEntry_ne dst n n' _ (fun h => hnn h.symm)]
        · intro c2 hc2
          rw [hl] at hc2
          exact IHn.2.1 c2 hc2
        · intro sub2 hsub2
          rw [hl] at hsub2
          rcases IHn.2.2 sub2 hsub2 with ⟨d', hd1, hd2⟩
          exact ⟨d', by
            rwa [subOf_setEntry_ne dst n n' _ (fun h => hnn h.symm)] at hd1, hd2⟩

theorem names_step (dst : Tree) (n : Name) (i : Inode) (restn : List Name)
    (Mn : List Name) (hnm : n ∉ restn)
    (hIH : Mn = (setEntry dst n i).map Prod.fst ++
      restn.filter (fun m => decide (m ∉ (setEntry dst n i).map Prod.fst))) :
    Mn = dst.map Prod.fst ++
      (n :: restn).filter (fun m => decide (m ∉ dst.map Prod.fst)) := by
  rw [map_fst_setEntry] at hIH
  by_cases hmem : n ∈ dst.map Prod.fst
  · rw [if_pos hmem] at hIH
    rw [hIH, List.filter_cons]
    simp [hmem]
  · rw [if_neg hmem] at hIH
    rw [hIH, List.filter_cons]
    have hn : decide (n ∉ dst.map Prod.fst) = true := by simp [hmem]
    rw [hn]
    simp only [if_pos rfl]
    rw [List.append_assoc, List.singleton_append]
    congr 1
    congr 1
    apply List.filter_congr
    intro m hm
    have hmn : m ≠ n := fun h => hnm (h ▸ hm)
    rw [decide_eq_decide]
    simp [hmn]

/-- Names of a successful merge: the destination names in place, then the
new source names appended in source order. -/
theorem mergeT_names (cs : Nat) :
    ∀ (src : List (Name × Inode)) (dst : Tree),
      wfEntries src = true →
      ∀ M, mergeT cs src dst = some M →
      M.map Prod.fst = dst.map Prod.fst ++
        (src.map Prod.fst).filter (fun m => decide (m ∉ dst.map Prod.fst)) := by
  intro src dst
  induction src, dst using mergeT.induct cs with
  | case1 dst =>
      intro _ M hM
      rw [mergeT_nil] at hM
      injection hM with hM
      subst hM
      simp
  | case2 n c rest dst d hld =>
      intro _ M hM
      rw [mergeT_cons_file_dir cs n c d rest dst hld] at hM
      exact Option.noConfusion hM
  | case3 n c rest dst hnd ih =>
      intro hwf M hM
      rw [wfEntries_cons_iff'] at hwf
      obtain ⟨hnm, -, hwfr⟩ := hwf
      have hM' : mergeT cs rest (setEntry dst n (.file (copy_file cs c))) = some M := by
        rcases hld : lookupEntry dst n with - | i
        · rwa [mergeT_cons_file_none cs n c rest dst hld] at hM
        · cases i with
          | file c0 => rwa [mergeT_cons_file_file cs n c c0 rest dst hld] at hM
          | dir d => exact absurd hld (fun h => hnd d h)
      exact names_step dst n _ (rest.map Prod.fst) _ hnm (ih hwfr M hM')
  | case4 n sub rest dst hsub ihsub =>
      intro _ M hM
      rw [mergeT_cons_dir, hsub] at hM
      exact Option.noConfusion hM
  | case5 n sub rest dst sub' hsub ihsub ihrest =>
      intro hwf M hM
      rw [wfEntries_cons_iff'] at hwf
      obtain ⟨hnm, -, hwfr⟩ := hwf
      have hM' : mergeT cs rest (setEntry dst n (.dir sub')) = some M := by
        rw [mergeT_cons_dir, hsub] at hM
        exact hM
      exact names_step dst n _ (rest.map Prod.fst) _ hnm (ihrest hwfr M hM')

/-- A successful merge of well-formed trees is well-formed. -/
theorem mergeT_wf (cs : Nat) :
    ∀ (src : List (Name × Inode)) (dst : Tree),
      wfEntries src = true → wfEntries dst = true →
      ∀ M, mergeT cs src dst = some M → wfEntries M = true := by
  intro src dst
  induction src, dst using mergeT.induct cs with
  | case1 dst =>
      intro _ hwfd M hM
      rw [mergeT_nil] at hM
      injection hM with hM
      subst hM
      exact hwfd
  | case2 n c rest dst d hld =>
      intro _ _ M hM
      rw [mergeT_cons_file_dir cs n c d rest dst hld] at hM
      exact Option.noConfusion hM
  | case3 n c rest dst hnd ih =>
      intro hwf hwfd M hM
      rw [wfEntries_cons_iff'] at hwf
      obtain ⟨hnm, -, hwfr⟩ := hwf
      have hM' : mergeT cs rest (setEntry dst n (.file (copy_file cs c))) = some M := by
        rcases hld : lookupEntry dst n with - | i
        · rwa [mergeT_cons_file_none cs n c rest dst hld] at hM
        · cases i with
          | file c0 => rwa [mergeT_cons_file_file cs n c c0 rest dst hld] at hM
          | dir d => exact absurd hld (fun h => hnd d h)
      exact ih hwfr (wfEntries_setEntry dst n _ hwfd (by simp [wfInode])) M hM'
  | case4 n sub rest dst hsub ihsub =>
      intro _ _ M hM
      rw [mergeT_cons_dir, hsub] at hM
      exact Option.noConfusion hM
  | case5 n sub rest dst sub' hsub ihsub ihrest =>
      intro hwf hwfd M hM
      rw [wfEntries_cons_iff'] at hwf
      obtain ⟨hnm, hwfs, hwfr⟩ := hwf
      have hM' : mergeT cs rest (setEntry dst n (.dir sub')) = some M := by
        rw [mergeT_cons_dir, hsub] at hM
        exact hM
      have hwfsub' : wfEntries sub' = true :=
        ihsub (by simpa [wfInode] using hwfs) (subOf_wf dst n hwfd) sub' hsub
      exact ihrest hwfr
        (wfEntries_setEntry dst n _ hwfd (by simpa [wfInode] using hwfsub')) M hM'

/-- Assembly: the merge succeeds as soon as no source file collides with
a destination directory and every source subdirectory merge succeeds. -/
theorem mergeT_isSome_of (cs : Nat) :
    ∀ (src : List (Name × Inode)) (dst : Tree),
      wfEntries src = true →
      (∀ n c d, lookupEntry src n = some (.file c) →
        lookupEntry dst n ≠ some (.dir d)) →
      (∀ n sub, lookupEntry src n = some (.dir sub) →
        (mergeT cs sub (subOf dst n)).isSome = true) →
      (mergeT cs src dst).isSome = true := by
  intro src dst
  induction src, dst using mergeT.induct cs with
  | case1 dst =>
      intro _ _ _
      rw [mergeT_nil]
      rfl
  | case2 n c rest dst d hld =>
      intro _ hfile _
      exact absurd hld (hfile n c d (by rw [lookupEntry_cons, if_pos rfl]))
  | case3 n c rest dst hnd ih =>
      intro hwf hfile hdir
      rw [wfEntries_cons_iff'] at hwf
      obtain ⟨hnm, -, hwfr⟩ := hwf
      have hstep : mergeT cs ((n, Inode.file c) :: rest) dst =
          mergeT cs rest (setEntry dst n (.file (copy_file cs c))) := by
        rcases hld : lookupEntry dst n with - | i
        · rw [mergeT_cons_file_none cs n c rest dst hld]
        · cases i with
          | file c0 => rw [mergeT_cons_file_file cs n c c0 rest dst hld]
          | dir d => exact absurd hld (fun h => hnd d h)
      rw [hstep]
      apply ih hwfr
      · intro n' c' d' hl'
        have hne : n' ≠ n := by
          intro he
          exact hnm (he ▸ mem_map_fst_of_lookupEntry rest n' _ hl')
        rw [lookupEntry_setEntry_ne dst n n' _ (fun h => hne h.symm)]
        exact hfile n' c' d' (by rw [lookupEntry_cons, if_neg (fun h => hne h.symm)]; exact hl')
      · intro n' sub' hl'
        have hne : n' ≠ n := by
          intro he
          exact hnm (he ▸ mem_map_fst_of_lookupEntry rest n' _ hl')
        rw [subOf_setEntry_ne dst n n' _ (fun h => hne h.symm)]
        exact hdir n' sub' (by rw [lookupEntry_cons, if_neg (fun h => hne h.symm)]; exact hl')
  | case4 n sub rest dst hsub ihsub =>
      intro _ _ hdir
      have := hdir n sub (by rw [lookupEntry_cons, if_pos rfl])
      rw [hsub] at this
      cases this
  | case5 n sub rest dst sub' hsub ihsub ihrest =>
      intro hwf hfile hdir
      rw [wfEntries_cons_iff'] at hwf
      obtain ⟨hnm, -, hwfr⟩ := hwf
      have hstep : mergeT cs ((n, Inode.dir sub) :: rest) dst =
          mergeT cs rest (setEntry dst n (.dir sub')) := by
        rw [mergeT_cons_dir, hsub]
      rw [hstep]
      apply ihrest hwfr
      · intro n' c' d' hl'
        have hne : n' ≠ n := by
          intro he
          exact hnm (he ▸ mem_map_fst_of_lookupEntry rest n' _ hl')
        rw [lookupEntry_setEntry_ne dst n n' _ (fun h => hne h.symm)]
        exact hfile n' c' d' (by rw [lookupEntry_cons, if_neg (fun h => hne h.symm)]; exact hl')
      · intro n' sub2 hl'
        have hne : n' ≠ n := by
          intro he
          exact hnm (he ▸ mem_map_fst_of_lookupEntry rest n' _ hl')
        rw [subOf_setEntry_ne dst n n' _ (fun h => hne h.symm)]
        exact hdir n' sub2 (by rw [lookupEntry_cons, if_neg (fun h => hne h.symm)]; exact hl')

/-- The fate of one directory entry under `pruneRec`: kept (possibly with
a pruned subdirectory) or removed. -/
def pruneEntryOpt (man : List (List Name)) (b : Bool) (pre : List Name) (n : Name) :
    Inode → Option Inode
  | .file c =>
      if b && startsWithDot n then some (.file c)
      else if n = LOGFILE then some (.file c)
      else if (pre ++ [n]) ∈ man then some (.file c) else none
  | .dir sub =>
      if b && startsWithDot n then some (.dir sub)
      else
        if (pruneRec man false (pre ++ [n]) sub).isEmpty then none
        else some (.dir (pruneRec man false (pre ++ [n]) sub))

theorem pruneRec_cons (man : List (List Name)) (b : Bool) (pre : List Name)
    (n : Name) (i : Inode) (rest : Tree) :
    pruneRec man b pre ((n, i) :: rest) =
      (match pruneEntryOpt man b pre n i with
       | none => []
       | some j => [(n, j)]) ++ pruneRec man b pre rest := by
  cases i with
  | file c =>
      by_cases hd : (b && startsWithDot n) = true
      · simp [pruneRec, pruneEntryOpt, hd]
      · by_cases hlf : n = LOGFILE
        · simp [pruneRec, pruneEntryOpt, hd, hlf]
        · by_cases hm : (pre ++ [n]) ∈ man
          · simp [pruneRec, pruneEntryOpt, hd, hlf, hm]
          · simp [pruneRec, pruneEntryOpt, hd, hlf, hm]
  | dir sub =>
      by_cases hd : (b && startsWithDot n) = true
      · simp [pruneRec, pruneEntryOpt, hd]
      · by_cases he : (pruneRec man false (pre ++ [n]) sub).isEmpty
        · simp [pruneRec, pruneEntryOpt, hd, he]
        · simp [pruneRec, pruneEntryOpt, hd, he]

theorem pruneRec_names_sublist (man : List (List Name)) (b : Bool) (pre : List Name) :
    ∀ t : Tree, ((pruneRec man b pre t).map Prod.fst).Sublist (t.map Prod.fst) := by
  intro t
  induction t with
  | nil => simp [pruneRec]
  | cons e rest ih =>
      obtain ⟨n, i⟩ := e
      rw [pruneRec_cons]
      rcases pruneEntryOpt man b pre n i with - | j
      · simp only [List.nil_append, List.map_cons]
        exact ih.cons n
      · simp only [List.singleton_append, List.map_cons]
        exact ih.cons₂ n

/-- Pointwise view of the prune: each entry is pruned independently. -/
theorem pruneRec_lookup (man : List (List Name)) (b : Bool) (pre : List Name) :
    ∀ t : Tree, (t.map Prod.fst).Nodup →
      ∀ n, lookupEntry (pruneRec man b pre t) n =
        (lookupEntry t n).bind (pruneEntryOpt man b pre n) := by
  intro t
  induction t with
  | nil => intro _ n; simp [pruneRec, lookupEntry]
  | cons e rest ih =>
      obtain ⟨m, i⟩ := e
      intro hnd n
      rw [List.map_cons, List.nodup_cons] at hnd
      obtain ⟨hm, hndr⟩ := hnd
      rw [pruneRec_cons]
      by_cases hmn : m = n
      · subst hmn
        rw [lookupEntry_cons, if_pos rfl, Option.some_bind]
        rcases hp : pruneEntryOpt man b pre m i with - | j
        · simp only [List.nil_append]
          rw [lookupEntry_none_of_not_mem]
          intro hc
          exact hm ((pruneRec_names_sublist man b pre rest).mem hc)
        · simp only [List.singleton_append]
          rw [lookupEntry_cons, if_pos rfl]
      · rw [lookupEntry_cons, if_neg hmn]
        rcases hp : pruneEntryOpt man b pre m i with - | j
        · simp only [List.nil_append]
          exact ih hndr n
        · simp only [List.singleton_append]
          rw [lookupEntry_cons, if_neg hmn]
          exact ih hndr n

theorem pruneEntryOpt_file_some (man : List (List Name)) (b : Bool) (pre : List Name)
    (n : Name) (c : Bytes) (j : Inode)
    (h : pruneEntryOpt man b pre n (.file c) = some j) : j = .file c := by
  simp only [pruneEntryOpt] at h
  split at h
  · injection h with h; exact h.symm
  · split at h
    · injection h with h; exact h.symm
    · split at h
      · injection h with h; exact h.symm
      · cases h

theorem pruneEntryOpt_dir_some (man : List (List Name)) (b : Bool) (pre : List Name)
    (n : Name) (sub : List (Name × Inode)) (j : Inode)
    (h : pruneEntryOpt man b pre n (.dir sub) = some j) :
    ((b && startsWithDot n) = true ∧ j = .dir sub) ∨
    ((b && startsWithDot n) = false ∧
      (pruneRec man false (pre ++ [n]) sub).isEmpty = false ∧
      j = .dir (pruneRec man false (pre ++ [n]) sub)) := by
  simp only [pruneEntryOpt] at h
  by_cases hd : (b && startsWithDot n) = true
  · rw [if_pos hd] at h
    injection h with h
    exact Or.inl ⟨hd, h.symm⟩
  · rw [if_neg hd] at h
    by_cases he : (pruneRec man false (pre ++ [n]) sub).isEmpty = true
    · rw [if_pos he] at h
      cases h
    · rw [if_neg he] at h
      injection h with h
      exact Or.inr ⟨Bool.eq_false_iff.mpr hd, Bool.eq_false_iff.mpr he, h.symm⟩

/-- Names surviving the prune, as a filter of the original names. -/
theorem pruneRec_names (man : List (List Name)) (b : Bool) (pre : List Name) :
    ∀ t : Tree, (t.map Prod.fst).Nodup →
      (pruneRec man b pre t).map Prod.fst =
        (t.map Prod.fst).filter
          (fun n => ((lookupEntry t n).bind (pruneEntryOpt man b pre n)).isSome) := by
  intro t
  induction t with
  | nil => simp [pruneRec]
  | cons e rest ih =>
      obtain ⟨m, i⟩ := e
      intro hnd
      rw [List.map_cons, List.nodup_cons] at hnd
      obtain ⟨hm, hndr⟩ := hnd
      have hcond : ∀ n ∈ rest.map Prod.fst,
          ((lookupEntry ((m, i) :: rest) n).bind (pruneEntryOpt man b pre n)).isSome =
          ((lookupEntry rest n).bind (pruneEntryOpt man b pre n)).isSome := by
        intro n hn
        have hmn : m ≠ n := fun h => hm (h ▸ hn)
        rw [lookupEntry_cons, if_neg hmn]
      have htail : (rest.map Prod.fst).filter
            (fun n => ((lookupEntry ((m, i) :: rest) n).bind (pruneEntryOpt man b pre n)).isSome) =
          (rest.map Prod.fst).filter
            (fun n => ((lookupEntry rest n).bind (pruneEntryOpt man b pre n)).isSome) :=
        List.filter_congr hcond
      have hhead : lookupEntry ((m, i) :: rest) m = some i := by
        rw [lookupEntry_cons, if_pos rfl]
      rw [pruneRec_cons, List.map_cons]
      dsimp only
      rw [List.filter_cons]
      rcases hp : pruneEntryOpt man b pre m i with - | j
      · simp only [hhead, Option.some_bind, hp, Option.isSome_none, Bool.false_eq_true,
          if_false, List.nil_append]
        rw [ih hndr, htail]
      · simp only [hhead, Option.some_bind, hp, Option.isSome_some, if_true,
          List.singleton_append, List.map_cons]
        rw [ih hndr, htail]

/-- Pruning preserves well-formedness. -/
theorem pruneRec_wf (man : List (List Name)) :
    ∀ (b : Bool) (pre : List Name) (t : Tree),
      wfEntries t = true → wfEntries (pruneRec man b pre t) = true := by
  intro b pre t
  induction b, pre, t using pruneRec.induct man with
  | case1 b pre => intro _; simp [pruneRec, wfEntries]
  | case2 b pre n c rest ih =>
      intro hwf
      rw [wfEntries_cons_iff'] at hwf
      obtain ⟨hnm, -, hwfr⟩ := hwf
      have hnm' : n ∉ (pruneRec man b pre rest).map Prod.fst :=
        fun hc => hnm ((pruneRec_names_sublist man b pre rest).mem hc)
      have hrest := ih hwfr
      rw [pruneRec_cons]
      rcases hp : pruneEntryOpt man b pre n (Inode.file c) with - | j
      · rw [List.nil_append]
        exact hrest
      · have hj := pruneEntryOpt_file_some man b pre n c j hp
        subst hj
        rw [List.singleton_append, wfEntries_cons_iff']
        exact ⟨hnm', by simp [wfInode], hrest⟩
  | case3 b pre n sub rest ihsub ihrest =>
      intro hwf
      rw [wfEntries_cons_iff'] at hwf
      obtain ⟨hnm, hwfs, hwfr⟩ := hwf
      have hnm' : n ∉ (pruneRec man b pre rest).map Prod.fst :=
        fun hc => hnm ((pruneRec_names_sublist man b pre rest).mem hc)
      have hrest := ihrest hwfr
      rw [pruneRec_cons]
      rcases hp : pruneEntryOpt man b pre n (Inode.dir sub) with - | j
      · rw [List.nil_append]
        exact hrest
      · rw [List.singleton_append, wfEntries_cons_iff']
        refine ⟨hnm', ?_, hrest⟩
        rcases pruneEntryOpt_dir_some man b pre n sub j hp with ⟨-, hj⟩ | ⟨-, -, hj⟩
        · subst hj
          exact hwfs
        · subst hj
          simpa [wfInode] using ihsub (by simpa [wfInode] using hwfs)

/-- Pruning is idempotent. -/
theorem pruneRec_idem (man : List (List Name)) :
    ∀ (b : Bool) (pre : List Name) (t : Tree),
      pruneRec man b pre (pruneRec man b pre t) = pruneRec man b pre t := by
  intro b pre t
  induction b, pre, t using pruneRec.induct man with
  | case1 b pre => simp [pruneRec]
  | case2 b pre n c rest ih =>
      rw [pruneRec_cons]
      rcases hp : pruneEntryOpt man b pre n (Inode.file c) with - | j
      · rw [List.nil_append]
        exact ih
      · have hj := pruneEntryOpt_file_some man b pre n c j hp
        subst hj
        rw [List.singleton_append, pruneRec_cons]
        simp only [hp, List.singleton_append, ih]
  | case3 b pre n sub rest ihsub ihrest =>
      rw [pruneRec_cons]
      rcases hp : pruneEntryOpt man b pre n (Inode.dir sub) with - | j
      · rw [List.nil_append]
        exact ihrest
      · rw [List.singleton_append, pruneRec_cons]
        rcases pruneEntryOpt_dir_some man b pre n sub j hp with ⟨hd, hj⟩ | ⟨hd, he, hj⟩
        · subst hj
          simp only [hp, List.singleton_append, ihrest]
        · subst hj
          have hp2 : pruneEntryOpt man b pre n
              (Inode.dir (pruneRec man false (pre ++ [n]) sub)) =
              some (Inode.dir (pruneRec man false (pre ++ [n]) sub)) := by
            simp [pruneEntryOpt, hd, ihsub, he]
          simp only [hp2, List.singleton_append, ihrest]

/-- Pointwise prune idempotence: a kept entry is kept unchanged when
pruned again. -/
theorem pruneEntryOpt_idem (man : List (List Name)) (b : Bool) (pre : List Name)
    (n : Name) (i j : Inode) (h : pruneEntryOpt man b pre n i = some j) :
    pruneEntryOpt man b pre n j = some j := by
  cases i with
  | file c =>
      by_cases hd : (b && startsWithDot n) = true
      · rw [pruneEntryOpt, if_pos hd] at h
        injection h with h
        subst h
        rw [pruneEntryOpt, if_pos hd]
      · by_cases hlf : n = LOGFILE
        · rw [pruneEntryOpt, if_neg hd, if_pos hlf] at h
          injection h with h
          subst h
          rw [pruneEntryOpt, if_neg hd, if_pos hlf]
        · by_cases hm : (pre ++ [n]) ∈ man
          · rw [pruneEntryOpt, if_neg hd, if_neg hlf, if_pos hm] at h
            injection h with h
            subst h
            rw [pruneEntryOpt, if_neg hd, if_neg hlf, if_pos hm]
          · rw [pruneEntryOpt, if_neg hd, if_neg hlf, if_neg hm] at h
            cases h
  | dir sub =>
      by_cases hd : (b && startsWithDot n) = true
      · rw [pruneEntryOpt, if_pos hd] at h
        injection h with h
        subst h
        rw [pruneEntryOpt, if_pos hd]
      · by_cases he : (pruneRec man false (pre ++ [n]) sub).isEmpty
        · rw [pruneEntryOpt, if_neg hd, if_pos he] at h
          cases h
        · rw [pruneEntryOpt, if_neg hd, if_neg he] at h
          injection h with h
          subst h
          rw [pruneEntryOpt, if_neg hd]
          rw [pruneRec_idem]
          rw [if_neg he]

/-- Extensionality for one directory level: same names in the same order
and the same lookups force equal entry lists. -/
theorem levelExt : ∀ (t1 t2 : Tree), t1.map Prod.fst = t2.map Prod.fst →
    (t1.map Prod.fst).Nodup →
    (∀ n, lookupEntry t1 n = lookupEntry t2 n) → t1 = t2 := by
  intro t1
  induction t1 with
  | nil =>
      intro t2 hn _ _
      cases t2 with
      | nil => rfl
      | cons e r => simp at hn
  | cons e rest ih =>
      intro t2 hn hnd hl
      obtain ⟨m, i⟩ := e
      cases t2 with
      | nil => simp at hn
      | cons e2 r2 =>
          obtain ⟨m2, i2⟩ := e2
          simp only [List.map_cons] at hn hnd
          injection hn with hm hnr
          subst hm
          rw [List.nodup_cons] at hnd
          obtain ⟨hm1, hnd2⟩ := hnd
          have h1 := hl m
          rw [lookupEntry_cons, if_pos rfl, lookupEntry_cons, if_pos rfl] at h1
          injection h1 with h1
          subst h1
          congr 1
          apply ih r2 hnr hnd2
          intro n
          by_cases hmn : n = m
          · subst hmn
            rw [lookupEntry_none_of_not_mem rest n hm1,
              lookupEntry_none_of_not_mem r2 n (hnr ▸ hm1)]
          · have h2 := hl n
            rw [lookupEntry_cons, if_neg (fun h => hmn h.symm),
              lookupEntry_cons, if_neg (fun h => hmn h.symm)] at h2
            exact h2

theorem mem_names_lookup (t : Tree) (m : Name) (h : m ∈ t.map Prod.fst) :
    ∃ i, lookupEntry t m = some i := by
  rcases List.mem_map.mp h with ⟨e, he, hfst⟩
  obtain ⟨n, i⟩ := e
  subst hfst
  rcases hlk : lookupEntry t (n, i).1 with - | j
  · exact absurd hlk (lookupEntry_ne_none_of_mem t (n, i).1 i he)
  · exact ⟨j, rfl⟩

/-- Re-merging the same source into a tree it was already merged into is
the identity: the merge re-copies every file to the value it already has. -/
theorem mergeT_remerge (cs : Nat) :
    ∀ (N : Nat) (src : List (Name × Inode)), sizeOf src ≤ N → ∀ (d0 d' : Tree),
      wfEntries src = true → wfEntries d0 = true →
      mergeT cs src d0 = some d' → mergeT cs src d' = some d' := by
  intro N
  induction N using Nat.strong_induction_on with
  | _ N IH =>
      intro src hsz d0 d' hwfs hwfd h1
      have hlkp := mergeT_lookup cs src d0 hwfs d' h1
      have hwfd' := mergeT_wf cs src d0 hwfs hwfd d' h1
      -- every source directory re-merges into its own merged image
      have hdirIH : ∀ n sub, lookupEntry src n = some (.dir sub) →
          mergeT cs sub (subOf d' n) = some (subOf d' n) ∧
          lookupEntry d' n = some (.dir (subOf d' n)) := by
        intro n sub hls
        rcases (hlkp n).2.2 sub hls with ⟨s', hm1, hld'⟩
        have hsubOf : subOf d' n = s' := by
          simp [subOf, hld']
        have hszsub : sizeOf sub < sizeOf src :=
          sizeOf_dir_mem_lt src n sub (lookupEntry_mem src n _ hls)
        have hwfsub : wfEntries sub = true := by
          simpa [wfInode] using wfInode_of_lookup src n _ hwfs hls
        have hre : mergeT cs sub s' = some s' :=
          IH (sizeOf sub) (Nat.lt_of_lt_of_le hszsub hsz) sub (Nat.le_refl _)
            (subOf d0 n) s' hwfsub (subOf_wf d0 n hwfd) hm1
        rw [hsubOf]
        exact ⟨hre, hsubOf ▸ hld'⟩
      have hsome : (mergeT cs src d').isSome = true := by
        apply mergeT_isSome_of cs src d' hwfs
        · intro n c d hls hld
          have := (hlkp n).2.1 c hls
          rw [this] at hld
          cases hld
        · intro n sub hls
          rw [(hdirIH n sub hls).1]
          rfl
      rcases Option.isSome_iff_exists.mp hsome with ⟨M2, h2⟩
      have hlkp2 := mergeT_lookup cs src d' hwfs M2 h2
      have hsubset : ∀ m ∈ src.map Prod.fst, m ∈ d'.map Prod.fst := by
        intro m hm
        rcases mem_names_lookup src m hm with ⟨i, hli⟩
        cases i with
        | file c =>
            exact mem_map_fst_of_lookupEntry d' m _ ((hlkp m).2.1 c hli)
        | dir sub =>
            exact mem_map_fst_of_lookupEntry d' m _ ((hdirIH m sub hli).2)
      have hnames2 := mergeT_names cs src d' hwfs M2 h2
      have hfilter : (src.map Prod.fst).filter
          (fun m => decide (m ∉ d'.map Prod.fst)) = [] := by
        rw [List.filter_eq_nil_iff]
        intro m hm
        simp [hsubset m hm]
      rw [hfilter, List.append_nil] at hnames2
      have hM2d' : M2 = d' := by
        apply levelExt M2 d' hnames2
        · rw [hnames2]
          exact wfEntries_nodup d' hwfd'
        · intro n
          rcases hls : lookupEntry src n with - | i
          · rw [(hlkp2 n).1 hls]
          · cases i with
            | file c =>
                rw [(hlkp2 n).2.1 c hls, (hlkp n).2.1 c hls]
            | dir sub =>
                rcases (hlkp2 n).2.2 sub hls with ⟨s2, hm2, hl2⟩
                rcases hdirIH n sub hls with ⟨hre, hld'⟩
                rw [hre] at hm2
                injection hm2 with hm2
                rw [hl2, hld', hm2]
      rw [hM2d'] at h2
      exact h2

theorem pruneEntryOpt_dir_dot (man : List (List Name)) (b : Bool) (pre : List Name)
    (n : Name) (sub : List (Name × Inode)) (hd : (b && startsWithDot n) = true) :
    pruneEntryOpt man b pre n (.dir sub) = some (.dir sub) := by
  rw [pruneEntryOpt, if_pos hd]

theorem pruneEntryOpt_dir_eval (man : List (List Name)) (b : Bool) (pre : List Name)
    (n : Name) (sub : List (Name × Inode)) (hd : ¬(b && startsWithDot n) = true) :
    pruneEntryOpt man b pre n (.dir sub) =
      if (pruneRec man false (pre ++ [n]) sub).isEmpty then none
      else some (.dir (pruneRec man false (pre ++ [n]) sub)) := by
  rw [pruneEntryOpt, if_neg hd]

/-- The heart of idempotence: re-merging the same source into the pruned
merge result succeeds and prunes back to the same tree. -/
theorem mergeT_prune_remerge (cs : Nat) (man : List (List Name)) :
    ∀ (N : Nat) (S : List (Name × Inode)), sizeOf S ≤ N →
      ∀ (b : Bool) (pre : List Name) (D M : Tree),
      wfEntries S = true → wfEntries D = true →
      mergeT cs S D = some M →
      ∃ M2, mergeT cs S (pruneRec man b pre M) = some M2 ∧
        pruneRec man b pre M2 = pruneRec man b pre M := by
  intro N
  induction N using Nat.strong_induction_on with
  | _ N IH =>
      intro S hsz b pre D M hwfS hwfD h1
      have hwfM := mergeT_wf cs S D hwfS hwfD M h1
      have hwfT1 := pruneRec_wf man b pre M hwfM
      have hndM := wfEntries_nodup M hwfM
      have hlkp := mergeT_lookup cs S D hwfS M h1
      have hT1lk : ∀ n, lookupEntry (pruneRec man b pre M) n =
          (lookupEntry M n).bind (pruneEntryOpt man b pre n) :=
        pruneRec_lookup man b pre M hndM
      -- the directory entries of the source, re-merged into the pruned tree
      have hdir : ∀ n sub, lookupEntry S n = some (.dir sub) →
          ∃ d' s2, mergeT cs sub (subOf D n) = some d' ∧
            lookupEntry M n = some (.dir d') ∧
            mergeT cs sub (subOf (pruneRec man b pre M) n) = some s2 ∧
            ((b && startsWithDot n) = true → s2 = d') ∧
            (¬(b && startsWithDot n) = true →
              pruneRec man false (pre ++ [n]) s2 =
                pruneRec man false (pre ++ [n]) d') := by
        intro n sub hls
        rcases (hlkp n).2.2 sub hls with ⟨d', hm1, hldM⟩
        have hszsub : sizeOf sub < sizeOf S :=
          sizeOf_dir_mem_lt S n sub (lookupEntry_mem S n _ hls)
        have hwfsub : wfEntries sub = true := by
          simpa [wfInode] using wfInode_of_lookup S n _ hwfS hls
        have hwfsubD : wfEntries (subOf D n) = true := subOf_wf D n hwfD
        by_cases hd : (b && startsWithDot n) = true
        · have hT1n : lookupEntry (pruneRec man b pre M) n = some (.dir d') := by
            rw [hT1lk n, hldM, Option.some_bind, pruneEntryOpt_dir_dot man b pre n d' hd]
          have hsubT1 : subOf (pruneRec man b pre M) n = d' := by
            simp [subOf, hT1n]
          have hre : mergeT cs sub d' = some d' :=
            mergeT_remerge cs (sizeOf sub) sub (Nat.le_refl _) (subOf D n) d'
              hwfsub hwfsubD hm1
          refine ⟨d', d', hm1, hldM, by rw [hsubT1]; exact hre, fun _ => rfl, ?_⟩
          intro hf
          exact absurd hd hf
        · have hT1n : lookupEntry (pruneRec man b pre M) n =
              if (pruneRec man false (pre ++ [n]) d').isEmpty then none
              else some (.dir (pruneRec man false (pre ++ [n]) d')) := by
            rw [hT1lk n, hldM, Option.some_bind, pruneEntryOpt_dir_eval man b pre n d' hd]
          have hsubT1 : subOf (pruneRec man b pre M) n =
              pruneRec man false (pre ++ [n]) d' := by
            by_cases he : (pruneRec man false (pre ++ [n]) d').isEmpty
            · rw [if_pos he] at hT1n
              rw [List.isEmpty_iff.mp he]
              simp [subOf, hT1n]
            · rw [if_neg he] at hT1n
              simp [subOf, hT1n]
          rcases IH (sizeOf sub) (Nat.lt_of_lt_of_le hszsub hsz) sub (Nat.le_refl _)
              false (pre ++ [n]) (subOf D n) d' hwfsub hwfsubD hm1 with ⟨s2, hm2, hPs2⟩
          exact ⟨d', s2, hm1, hldM, by rw [hsubT1]; exact hm2,
            fun hf => absurd hf hd, fun _ => hPs2⟩
      -- the re-merge succeeds
      have hsome : (mergeT cs S (pruneRec man b pre M)).isSome = true := by
        apply mergeT_isSome_of cs S (pruneRec man b pre M) hwfS
        · intro n c d hls hld
          rw [hT1lk n, (hlkp n).2.1 c hls, Option.some_bind] at hld
          rcases hp : pruneEntryOpt man b pre n (.file (copy_file cs c)) with - | j
          · rw [hp] at hld
            cases hld
          · rw [hp] at hld
            injection hld with hld
            have := pruneEntryOpt_file_some man b pre n _ j hp
            rw [this] at hld
            cases hld
        · intro n sub hls
          rcases hdir n sub hls with ⟨d', s2, -, -, hm2, -, -⟩
          rw [hm2]
          rfl
      rcases Option.isSome_iff_exists.mp hsome with ⟨M2, h2⟩
      refine ⟨M2, h2, ?_⟩
      have hlkp2 := mergeT_lookup cs S (pruneRec man b pre M) hwfS M2 h2
      have hwfM2 := mergeT_wf cs S (pruneRec man b pre M) hwfS hwfT1 M2 h2
      have hndM2 := wfEntries_nodup M2 hwfM2
      have hM2lk : ∀ n, lookupEntry (pruneRec man b pre M2) n =
          (lookupEntry M2 n).bind (pruneEntryOpt man b pre n) :=
        pruneRec_lookup man b pre M2 hndM2
      -- pointwise: the pruned re-merge looks up like the pruned merge
      have hpoint : ∀ n, (lookupEntry M2 n).bind (pruneEntryOpt man b pre n) =
          lookupEntry (pruneRec man b pre M) n := by
        intro n
        rcases hls : lookupEntry S n with - | i
        · rw [(hlkp2 n).1 hls, hT1lk n]
          rcases hM : lookupEntry M n with - | i0
          · rfl
          · rw [Option.some_bind]
            rcases hp : pruneEntryOpt man b pre n i0 with - | i1
            · rfl
            · rw [Option.some_bind]
              exact pruneEntryOpt_idem man b pre n i0 i1 hp
        · cases i with
          | file c =>
              rw [(hlkp2 n).2.1 c hls, hT1lk n, (hlkp n).2.1 c hls]
          | dir sub =>
              rcases hdir n sub hls with ⟨d', s2, -, hldM, hm2, hdot, hnodot⟩
              rcases (hlkp2 n).2.2 sub hls with ⟨s2x, hm2x, hlM2⟩
              rw [hm2] at hm2x
              injection hm2x with hm2x
              subst hm2x
              rw [hlM2, hT1lk n, hldM, Option.some_bind, Option.some_bind]
              by_cases hd : (b && startsWithDot n) = true
              · rw [hdot hd, pruneEntryOpt_dir_dot man b pre n d' hd]
              · rw [pruneEntryOpt_dir_eval man b pre n s2 hd,
                  pruneEntryOpt_dir_eval man b pre n d' hd, hnodot hd]
      -- names of the pruned re-merge
      have hnames2 := mergeT_names cs S (pruneRec man b pre M) hwfS M2 h2
      have hPnames : (pruneRec man b pre M2).map Prod.fst =
          (pruneRec man b pre M).map Prod.fst := by
        rw [pruneRec_names man b pre M2 hndM2, hnames2, List.filter_append]
        have hkeep : ((pruneRec man b pre M).map Prod.fst).filter
            (fun n => ((lookupEntry M2 n).bind (pruneEntryOpt man b pre n)).isSome) =
            (pruneRec man b pre M).map Prod.fst := by
          rw [List.filter_eq_self]
          intro n hn
          rcases mem_names_lookup (pruneRec man b pre M) n hn with ⟨i1, hi1⟩
          rw [hpoint n, hi1]
          rfl
        have hdrop : (((S.map Prod.fst).filter
              (fun m => decide (m ∉ (pruneRec man b pre M).map Prod.fst))).filter
            (fun n => ((lookupEntry M2 n).bind (pruneEntryOpt man b pre n)).isSome)) = [] := by
          rw [List.filter_eq_nil_iff]
          intro n hn
          rw [List.mem_filter] at hn
          obtain ⟨-, hnot⟩ := hn
          have hnotmem : n ∉ (pruneRec man b pre M).map Prod.fst := by
            simpa using hnot
          rw [hpoint n, lookupEntry_none_of_not_mem _ n hnotmem]
          simp
        rw [hkeep, hdrop, List.append_nil]
      -- assemble with level extensionality
      apply levelExt (pruneRec man b pre M2) (pruneRec man b pre M) hPnames
      · rw [hPnames]
        exact wfEntries_nodup _ hwfT1
      · intro n
        rw [hM2lk n, hpoint n]

/-- **C8**: updates are idempotent — for every archive-plus-manifest input
(an extraction outcome together with the parse behaviour of its manifest)
and every well-formed live directory, if `update` returns at all, running
`update` again with the same input on the resulting tree returns the same
flag and leaves the live tree byte-identical to its state after the first
application, so the manifest generated from the tree is also unchanged
after the second application.  (The environment raises no
`PermissionError`, i.e. `perm = []`.) -/
theorem update_idempotent (jparse : Bytes → ParsedJson) (cs : Nat)
    (extract : ExtractResult) (live T1 : Tree) (fl : Bool)
    (hwfS : ∀ staged, extract = ExtractResult.ok staged → wfEntries staged = true)
    (hwfL : wfEntries live = true)
    (h1 : update jparse [] cs extract live = some (fl, T1)) :
    ∃ T2, update jparse [] cs extract T1 = some (fl, T2) ∧ T2 = T1 ∧
      ∀ hsh : Bytes → String, gen_manifest hsh cs T2 = gen_manifest hsh cs T1 := by
  cases extract with
  | openReadError =>
      simp only [update] at h1
      exact Option.noConfusion h1
  | eofError =>
      simp only [update] at h1
      injection h1 with h1
      rw [Prod.mk.injEq] at h1
      obtain ⟨hfl, hT⟩ := h1
      subst hfl
      subst hT
      exact ⟨live, rfl, rfl, fun _ => rfl⟩
  | readError =>
      simp only [update] at h1
      injection h1 with h1
      rw [Prod.mk.injEq] at h1
      obtain ⟨hfl, hT⟩ := h1
      subst hfl
      subst hT
      exact ⟨live, rfl, rfl, fun _ => rfl⟩
  | ok staged =>
      have hwfst := hwfS staged rfl
      rcases hlm : load_manifest jparse staged with - | - | ⟨man, staged'⟩
      · simp only [update, hlm] at h1
        exact Option.noConfusion h1
      · simp only [update, hlm] at h1
        injection h1 with h1
        rw [Prod.mk.injEq] at h1
        obtain ⟨hfl, hT⟩ := h1
        subst hfl
        subst hT
        refine ⟨live, ?_, rfl, fun _ => rfl⟩
        simp only [update, hlm]
      · rcases hcd : copy_directory [] cs [] staged' live with - | live'
        · simp only [update, hlm, hcd] at h1
          exact Option.noConfusion h1
        · simp only [update, hlm, hcd] at h1
          injection h1 with h1
          rw [Prod.mk.injEq] at h1
          obtain ⟨hfl, hT⟩ := h1
          subst hfl
          have hstaged' : staged' = removeEntry staged MANIFEST := by
            simp only [load_manifest] at hlm
            cases hl : lookupEntry staged MANIFEST with
            | none => simp [hl] at hlm
            | some i =>
                simp only [hl] at hlm
                cases i with
                | dir d => simp at hlm
                | file text =>
                    cases hj : jparse text <;> simp only [hj] at hlm
                    · cases hlm
                    · cases hlm
                    · cases hlm
                      rfl
          have hwfs' : wfEntries staged' = true := by
            rw [hstaged']
            exact wfEntries_removeEntry staged MANIFEST hwfst
          have hmerge1 : mergeT cs staged' live = some live' := by
            rw [← copy_directory_nil_eq_mergeT cs [] staged' live]
            exact hcd
          have hwflive' : wfEntries live' = true :=
            mergeT_wf cs staged' live hwfs' hwfL live' hmerge1
          have hT1 : T1 = pruneRec man true [] live' := by
            rw [← hT, strip_strip_eq_pruneRec man live' hwflive']
          rcases mergeT_prune_remerge cs man (sizeOf staged') staged' (Nat.le_refl _)
              true [] live live' hwfs' hwfL hmerge1 with ⟨M2, hm2, hP2⟩
          have hwfM2 : wfEntries M2 = true :=
            mergeT_wf cs staged' (pruneRec man true [] live') hwfs'
              (pruneRec_wf man true [] live' hwflive') M2 hm2
          have hcd2 : copy_directory [] cs [] staged' T1 = some M2 := by
            rw [copy_directory_nil_eq_mergeT cs [] staged' T1, hT1]
            exact hm2
          refine ⟨T1, ?_, rfl, fun _ => rfl⟩
          simp only [update, hlm, hcd2]
          rw [strip_strip_eq_pruneRec man M2 hwfM2, hP2, ← hT1]

/-- Concrete inputs for the idempotence witness. -/
def jparseC8 : Bytes → ParsedJson := fun _ => ParsedJson.list [[['a']]]

def stagedC8 : Tree := [(MANIFEST, Inode.file [0]), (['a'], Inode.file [1, 2])]

theorem update_idempotent_witness :
    (∀ staged, ExtractResult.ok stagedC8 = ExtractResult.ok staged →
      wfEntries staged = true) ∧
    wfEntries ([] : Tree) = true ∧
    update jparseC8 [] 1 (ExtractResult.ok stagedC8) [] =
      some (true, [(['a'], Inode.file [1, 2])]) ∧
    ∃ T2, update jparseC8 [] 1 (ExtractResult.ok stagedC8)
        [(['a'], Inode.file [1, 2])] = some (true, T2) ∧
      T2 = [(['a'], Inode.file [1, 2])] ∧
      ∀ hsh : Bytes → String,
        gen_manifest hsh 1 T2 = gen_manifest hsh 1 [(['a'], Inode.file [1, 2])] := by
  have hwfS : ∀ staged, ExtractResult.ok stagedC8 = ExtractResult.ok staged →
      wfEntries staged = true := by
    intro staged hst
    injection hst with h
    rw [← h]
    simp [wfEntries, stagedC8, MANIFEST]
  have hwfL : wfEntries ([] : Tree) = true := by simp [wfEntries]
  have h1 : update jparseC8 [] 1 (ExtractResult.ok stagedC8) [] =
      some (true, [(['a'], Inode.file [1, 2])]) := by
    simp [update, load_manifest, jparseC8, stagedC8, lookupEntry, MANIFEST,
      removeEntry, copy_directory, copy_subfile, copy_file, readChunks, setEntry,
      strip_files, get_orphans, get_files, getFilesRec, startsWithDot, LOGFILE,
      strip_tree, removeFileAt]
  exact ⟨hwfS, hwfL, h1,
    update_idempotent jparseC8 1 (ExtractResult.ok stagedC8) []
      [(['a'], Inode.file [1, 2])] true hwfS hwfL h1⟩

/-- Concrete inputs for the manifest-deletion witness. -/
def jparseC7 : Bytes → ParsedJson := fun _ => ParsedJson.list []

def stagedC7 : Tree := [(MANIFEST, Inode.file [3]), (['b'], Inode.file [4])]

theorem manifest_never_merged_witness :
    wfEntries stagedC7 = true ∧
    load_manifest jparseC7 stagedC7 = LoadResult.ok [] [(['b'], Inode.file [4])] ∧
    lookupEntry [(['b'], Inode.file [4])] MANIFEST = none ∧
    copy_directory [] 1 [] [(['b'], Inode.file [4])] [] =
      some [(['b'], Inode.file (copy_file 1 [4]))] ∧
    lookupEntry [(['b'], Inode.file (copy_file 1 [4]))] MANIFEST =
      lookupEntry ([] : Tree) MANIFEST := by
  have hwf : wfEntries stagedC7 = true := by
    simp [wfEntries, stagedC7, MANIFEST]
  have hload : load_manifest jparseC7 stagedC7 =
      LoadResult.ok [] [(['b'], Inode.file [4])] := by
    simp [load_manifest, jparseC7, stagedC7, lookupEntry, MANIFEST, removeEntry]
  have hcd : copy_directory [] 1 [] [(['b'], Inode.file [4])] [] =
      some [(['b'], Inode.file (copy_file 1 [4]))] := by
    simp [copy_directory, copy_subfile, lookupEntry, setEntry]
  have h := manifest_never_merged jparseC7 stagedC7 [] [(['b'], Inode.file [4])] hwf hload
  exact ⟨hwf, hload, h.1, hcd, h.2 [] 1 [] _ hcd⟩

end Digsigclt
